import Mathlib

/-!
Verification of the serial CSR kernels of `nalgebra-sparse`
(`src/nalgebra-sparse/src/ops/serial/csr.rs`).

The embedding models a CSR matrix as explicit per-row lists of column
indices and values, together with a `pid` field standing for the address
of the reference-counted (`Arc`) sparsity-pattern object, so that the
`Arc::ptr_eq` fast path of `spadd_csr` can be expressed.  Dense matrices
are lists of rows.  The kernels mutate `C` in place in Rust; here they
thread the matrix state explicitly and return the final state together
with an optional `OperationError`, so that the partially-updated state
left behind by an early `InvalidPattern` return is observable.

Scalars are kept abstract: definitions only assume the operations the
Rust bounds provide (`Zero`, `One`, `Add`, `Mul`, decidable equality),
theorems assume a commutative ring.
-/

set_option maxHeartbeats 1000000

namespace CsrKernels

/-- Modify the element at index `i` of a list; no-op when out of range.
Models an in-place write through an index into a Rust slice. -/
def modifyAt {α : Type} : List α → Nat → (α → α) → List α
  | [], _, _ => []
  | a :: t, 0, f => f a :: t
  | a :: t, n + 1, f => a :: modifyAt t n f

/-- `addAt l i x` models `slice[i] += x`. -/
def addAt {α : Type} [Add α] (l : List α) (i : Nat) (x : α) : List α :=
  modifyAt l i (fun v => v + x)

/-- First value in an association list of `(column, value)` pairs whose
column equals `col`; models entry lookup within one sparse row. -/
def lookupCol {α : Type} (col : Nat) : List (Nat × α) → Option α
  | [] => none
  | (c, v) :: rest => if c = col then some v else lookupCol col rest

/-- Index of the first occurrence of `col` in a list of column indices;
models `.iter().enumerate().find(|(_, c_col)| *c_col == a_col)`. -/
def findCol (col : Nat) : List Nat → Option Nat
  | [] => none
  | c :: cs => if c = col then some 0 else (findCol col cs).map (· + 1)

/-- Error classification used by the serial sparse kernels
(`OperationErrorType` in `ops/serial`). -/
inductive OperationErrorType where
  | InvalidPattern
  deriving DecidableEq

/-- An operation error: a type tag together with a human-readable message
(`OperationError::from_type_and_message`). -/
structure OperationError where
  errorType : OperationErrorType
  message : String
  deriving DecidableEq

/-- The error built by `spadd_csr_unexpected_entry()` in the source. -/
def spadd_csr_unexpected_entry : OperationError :=
  { errorType := OperationErrorType.InvalidPattern,
    message := "Found entry in `a` that is not present in `c`." }

/-- The error built by `spmm_csr_unexpected_entry()` in the source. -/
def spmm_csr_unexpected_entry : OperationError :=
  { errorType := OperationErrorType.InvalidPattern,
    message := "Found unexpected entry that is not present in `c`." }

/-- A CSR matrix: dimensions, the identity (`Arc` pointer address) of its
shared sparsity-pattern object, and per-row sorted column indices with
the aligned values.  The flat CSR `values` array of the source is the
concatenation of `rowVals`; iterating it in lockstep with another matrix
sharing the same pattern object is the same as iterating row by row. -/
structure CsrMatrix (T : Type) where
  nrows : Nat
  ncols : Nat
  pid : Nat
  rowCols : List (List Nat)
  rowVals : List (List T)
  deriving DecidableEq

/-- The `(column, value)` entries of row `i`, as produced by `row(i)` /
`row_iter()` (column indices zipped with values). -/
def CsrMatrix.rowEntries {T : Type} (m : CsrMatrix T) (i : Nat) : List (Nat × T) :=
  (m.rowCols.getD i []).zip (m.rowVals.getD i [])

/-- All rows of the matrix as entry lists, in order (`row_iter()`). -/
def CsrMatrix.rowsEntries {T : Type} (m : CsrMatrix T) : List (List (Nat × T)) :=
  (m.rowCols.zip m.rowVals).map (fun p => p.1.zip p.2)

/-- The dense mathematical value of the matrix at `(i, j)`: the stored
value when `(i, j)` is in the pattern, and zero otherwise. -/
def CsrMatrix.getEntry {T : Type} [Zero T] (m : CsrMatrix T) (i j : Nat) : T :=
  (lookupCol j (m.rowEntries i)).getD 0

/-- The CSR invariant: row lists match the dimensions, values are aligned
with column indices, and column indices within a row are strictly
ascending (hence duplicate-free) and in bounds. -/
structure CsrWF {T : Type} (m : CsrMatrix T) : Prop where
  colsLen : m.rowCols.length = m.nrows
  valsLen : m.rowVals.length = m.nrows
  rowLen : ∀ i < m.nrows, (m.rowVals.getD i []).length = (m.rowCols.getD i []).length
  sorted : ∀ i < m.nrows, (m.rowCols.getD i []).Pairwise (· < ·)
  colLt : ∀ i < m.nrows, ∀ c ∈ m.rowCols.getD i [], c < m.ncols

/-- A dense matrix (`DMatrixSlice` / `DMatrixSliceMut`): dimensions and a
row-major list of rows. -/
structure DMat (T : Type) where
  nrows : Nat
  ncols : Nat
  rows : List (List T)
  deriving DecidableEq

/-- Read entry `(i, j)` of a dense matrix. -/
def DMat.get {T : Type} [Zero T] (d : DMat T) (i j : Nat) : T :=
  (d.rows.getD i []).getD j 0

/-- Write entry `(i, j)` of a dense matrix. -/
def DMat.set {T : Type} (d : DMat T) (i j : Nat) (v : T) : DMat T :=
  { d with rows := modifyAt d.rows i (fun r => modifyAt r j (fun _ => v)) }

/-- Apply an update to row `i` of a dense matrix (`row_mut(i)`). -/
def DMat.modifyRow {T : Type} (d : DMat T) (i : Nat) (f : List T → List T) : DMat T :=
  { d with rows := modifyAt d.rows i f }

/-- Row `k` of a dense matrix as a list (`b.row(k)`). -/
def DMat.denseRow {T : Type} (b : DMat T) (k : Nat) : List T :=
  b.rows.getD k []

/-- Column `k` of a dense matrix as a list (`b.column(k)`). -/
def DMat.denseCol {T : Type} [Zero T] (b : DMat T) (k : Nat) : List T :=
  b.rows.map (fun r => r.getD k 0)

/-- Well-formedness of a dense matrix: the row list is rectangular and
matches the stated dimensions. -/
structure DWF {T : Type} (d : DMat T) : Prop where
  rowsLen : d.rows.length = d.nrows
  rowLen : ∀ r ∈ d.rows, r.length = d.ncols

/-- The dense matrix whose `(i, j)` entry is `f i j`. -/
def DMat.ofFun {T : Type} (m n : Nat) (f : Nat → Nat → T) : DMat T :=
  ⟨m, n, (List.range m).map (fun i => (List.range n).map (fun j => f i j))⟩

/-- The sparse-dense kernel `spmm_csr_dense_`,
`C <- beta * C + alpha * op(A) * op(B)` with `A` sparse, `B`, `C` dense.
When `A` is transposed the code first scales all of `C` by `beta`
(`c *= beta`, entry-wise right multiplication) and then scatters
`gamma_ki * op(B)[k, :]` into row `i` of `C` for every stored entry
`A[k, i]`; otherwise it fuses `C[i,j] = beta*C[i,j] + alpha*dot` per
entry, with `dot` accumulated over the stored entries of `A`'s row `i`.
The iterator zips of the source become `zipWith` / `min`-bounded index
ranges. -/
def spmm_csr_dense {T : Type} [Zero T] [Add T] [Mul T] (c : DMat T) (beta alpha : T)
    (transA : Bool) (a : CsrMatrix T) (transB : Bool) (b : DMat T) : DMat T :=
  if transA then
    let c1 : DMat T := { c with rows := c.rows.map (fun r => r.map (fun v => v * beta)) }
    (List.range a.nrows).foldl (fun cm k =>
      (a.rowEntries k).foldl (fun cm p =>
        let gamma := alpha * p.2
        let bvec := if transB then b.denseCol k else b.denseRow k
        cm.modifyRow p.1 (fun crow =>
          crow.zipWith (fun cij bkj => cij + gamma * bkj) bvec)) cm) c1
  else
    (List.range c.ncols).foldl (fun cm j =>
      (List.range (min cm.nrows a.nrows)).foldl (fun cm i =>
        let dot := (a.rowEntries i).foldl
          (fun acc p => acc + p.2 * (if transB then b.get j p.1 else b.get p.1 j)) 0
        cm.set i j (beta * cm.get i j + alpha * dot)) cm) c

/-- The shared inner loop of `spadd_csr` and `spmm_csr` (non-transposed
paths): walk the source entries `(col, v)` in order; for each, search
`col` among the remaining columns of `C`'s row by a forward linear scan,
add `coeff * v` into the matching value slot, then restrict both slices
to the suffix starting at the found index.  On a failed search it stops
and reports `err`, leaving the values as mutated so far.  The recursive
call works on the slice suffixes and the untouched prefix is glued back,
mirroring Rust's re-borrowed mutable slices. -/
def scanAdd {T : Type} [Add T] [Mul T] (err : OperationError) (coeff : T) :
    List Nat → List T → List (Nat × T) → List T × Option OperationError
  | _, cvals, [] => (cvals, none)
  | ccols, cvals, (col, v) :: rest =>
    match findCol col ccols with
    | none => (cvals, some err)
    | some idx =>
      let cvals1 := addAt cvals idx (coeff * v)
      let res := scanAdd err coeff (ccols.drop idx) (cvals1.drop idx) rest
      (cvals1.take idx ++ res.1, res.2)

/-- One row of the non-transposed general path of `spadd_csr`: scale the
row values by `beta` unless `beta = 1`, then scan-add `alpha * a_val`
for every entry of `A`'s row. -/
def spaddRowStep {T : Type} [One T] [Add T] [Mul T] [DecidableEq T] (beta alpha : T)
    (ccols : List Nat) (cvals : List T) (arow : List (Nat × T)) :
    List T × Option OperationError :=
  let cvals1 := if beta ≠ 1 then cvals.map (fun v => v * beta) else cvals
  scanAdd spadd_csr_unexpected_entry alpha ccols cvals1 arow

/-- The row loop of the non-transposed general path of `spadd_csr` over
the zipped rows of `C` and `A`.  On a row error the remaining rows are
returned unchanged, modelling the early `return Err(..)`. -/
def spaddRowsLoop {T : Type} [One T] [Add T] [Mul T] [DecidableEq T] (beta alpha : T) :
    List ((List Nat × List T) × List (Nat × T)) → List (List T) × Option OperationError
  | [] => ([], none)
  | (crow, arow) :: rest =>
    match spaddRowStep beta alpha crow.1 crow.2 arow with
    | (cvals2, some e) => (cvals2 :: rest.map (fun q => q.1.2), some e)
    | (cvals2, none) =>
      let res := spaddRowsLoop beta alpha rest
      (cvals2 :: res.1, res.2)

/-- The stored entries of `A` flattened in row-major order as
`(i, j, value)` triples; the iteration order of the transposed path of
`spadd_csr` (`for (i, a_row_i) in a.row_iter().enumerate()` with the
inner loop over the row's entries). -/
def CsrMatrix.transEntries {T : Type} (a : CsrMatrix T) : List (Nat × Nat × T) :=
  (a.rowsEntries.enum.map (fun p => p.2.map (fun q => (p.1, q.1, q.2)))).flatten

/-- The entry loop of the transposed path of `spadd_csr`: for each stored
entry `A[i, j]` it looks up position `(j, i)` of `C` through
`index_entry_mut(j, i)` (modelled from the spec: direct entry lookup in
row `j` of the pattern, a nonzero/structural-zero discriminated result)
and adds `alpha * a_val`, or stops with the error on a structural
zero. -/
def spaddTransLoop {T : Type} [Add T] [Mul T] (alpha : T) (ccols : List (List Nat)) :
    List (Nat × Nat × T) → List (List T) → List (List T) × Option OperationError
  | [], vals => (vals, none)
  | (i, j, aval) :: rest, vals =>
    match findCol i (ccols.getD j []) with
    | some idx =>
        spaddTransLoop alpha ccols rest (modifyAt vals j (fun r => addAt r idx (alpha * aval)))
    | none => (vals, some spadd_csr_unexpected_entry)

/-- The kernel `spadd_csr`, `C <- beta * C + alpha * op(A)`, both sparse.
First the `Arc::ptr_eq` fast path, modelled by comparing the `pid`
fields: the flat value arrays are combined element-wise (row-wise here,
which coincides with the flat zip because the two matrices share their
pattern and hence their row partition).  Otherwise the transposed or the
non-transposed general path runs; dimension compatibility is a caller
precondition (`assert_compatible_spadd_dims!`) and appears as
hypotheses of the theorems. -/
def spadd_csr {T : Type} [One T] [Add T] [Mul T] [DecidableEq T] (c : CsrMatrix T)
    (beta alpha : T) (transA : Bool) (a : CsrMatrix T) :
    CsrMatrix T × Option OperationError :=
  if c.pid = a.pid then
    let vals := List.zipWith
      (fun cr ar => List.zipWith (fun cv av => beta * cv + alpha * av) cr ar)
      c.rowVals a.rowVals
    ({ c with rowVals := vals }, none)
  else if transA then
    let vals0 := if beta ≠ 1 then c.rowVals.map (fun r => r.map (fun v => v * beta))
                 else c.rowVals
    let res := spaddTransLoop alpha c.rowCols a.transEntries vals0
    ({ c with rowVals := res.1 }, res.2)
  else
    let zipped := (c.rowCols.zip c.rowVals).zip a.rowsEntries
    let res := spaddRowsLoop beta alpha zipped
    ({ c with rowVals := res.1 ++ c.rowVals.drop zipped.length }, res.2)

/-- The inner loop of non-transposed `spmm_csr` over the stored entries
`(k, a_ik)` of `A`'s row `i`: for each, scan-add
`(alpha * a_ik) * b_kj` over `B`'s row `k` into `C`'s row, re-taking the
full row slices for each `k` (the source re-borrows
`cols_and_values_mut()` inside the `k` loop). -/
def spmmRowKLoop {T : Type} [Add T] [Mul T] (alpha : T) (b : CsrMatrix T)
    (ccols : List Nat) : List (Nat × T) → List T → List T × Option OperationError
  | [], cvals => (cvals, none)
  | (k, aik) :: rest, cvals =>
    match scanAdd spmm_csr_unexpected_entry (alpha * aik) ccols cvals (b.rowEntries k) with
    | (cvals2, some e) => (cvals2, some e)
    | (cvals2, none) => spmmRowKLoop alpha b ccols rest cvals2

/-- One row of non-transposed `spmm_csr`: scale the row values by `beta`
(`*c_ij = beta * c_ij`, unconditionally), then run the inner loop. -/
def spmmRowStep {T : Type} [Add T] [Mul T] (beta alpha : T) (b : CsrMatrix T)
    (ccols : List Nat) (cvals : List T) (arow : List (Nat × T)) :
    List T × Option OperationError :=
  spmmRowKLoop alpha b ccols arow (cvals.map (fun v => beta * v))

/-- The row loop of non-transposed `spmm_csr` over the zipped rows of `C`
and `A`; on a row error the remaining rows are returned unchanged. -/
def spmmRowsLoop {T : Type} [Add T] [Mul T] (beta alpha : T) (b : CsrMatrix T) :
    List ((List Nat × List T) × List (Nat × T)) → List (List T) × Option OperationError
  | [] => ([], none)
  | (crow, arow) :: rest =>
    match spmmRowStep beta alpha b crow.1 crow.2 arow with
    | (cvals2, some e) => (cvals2 :: rest.map (fun q => q.1.2), some e)
    | (cvals2, none) =>
      let res := spmmRowsLoop beta alpha b rest
      (cvals2 :: res.1, res.2)

/-- Modelled from the spec: `CsrMatrix::transpose`, owned by the external
CSR collaborator ("an explicit-transpose operation producing an owned,
normalized CSR matrix").  Row `j` of the transpose collects `(i, v)` for
every stored entry `(j, v)` of row `i`, in ascending `i`, so rows of the
result are again sorted.  The result owns a fresh pattern object; its
`pid` is irrelevant because `spmm_csr` never compares patterns. -/
def CsrMatrix.transpose {T : Type} (m : CsrMatrix T) : CsrMatrix T :=
  let rowsOf := fun j => (List.range m.nrows).filterMap
    (fun i => (lookupCol j (m.rowEntries i)).map (fun v => (i, v)))
  { nrows := m.ncols, ncols := m.nrows, pid := m.pid,
    rowCols := (List.range m.ncols).map (fun j => (rowsOf j).map Prod.fst),
    rowVals := (List.range m.ncols).map (fun j => (rowsOf j).map Prod.snd) }

/-- The transpose-dispatch `match (trans_a, trans_b)` of `spmm_csr`:
`none` models the `unreachable!()` arm for `(false, false)`, the other
arms produce the explicitly transposed copies handed to the recursive
call. -/
def spmmTransposeDispatch {T : Type} (transA transB : Bool) (a b : CsrMatrix T) :
    Option (CsrMatrix T × CsrMatrix T) :=
  match transA, transB with
  | false, false => none
  | true, false => some (a.transpose, b)
  | false, true => some (a, b.transpose)
  | true, true => some (a.transpose, b.transpose)

/-- The non-transposed case of `spmm_csr` (the body of the first branch
of the `if`). -/
def spmm_csr_base {T : Type} [Add T] [Mul T] (c : CsrMatrix T) (beta alpha : T)
    (a b : CsrMatrix T) : CsrMatrix T × Option OperationError :=
  let zipped := (c.rowCols.zip c.rowVals).zip a.rowsEntries
  let res := spmmRowsLoop beta alpha b zipped
  ({ c with rowVals := res.1 ++ c.rowVals.drop zipped.length }, res.2)

/-- The kernel `spmm_csr`, `C <- beta * C + alpha * op(A) * op(B)`, all
sparse.  When some transpose flag is set, explicit transposed copies are
computed and the kernel recurses with both flags false; that recursive
call runs the non-transposed case, so it is modelled by a direct call to
`spmm_csr_base`.  The `none` arm of the dispatch models the
`unreachable!()` panic arm and is proved unreachable. -/
def spmm_csr {T : Type} [Add T] [Mul T] (c : CsrMatrix T) (beta alpha : T)
    (transA : Bool) (a : CsrMatrix T) (transB : Bool) (b : CsrMatrix T) :
    CsrMatrix T × Option OperationError :=
  if !transA && !transB then
    spmm_csr_base c beta alpha a b
  else
    match spmmTransposeDispatch transA transB a b with
    | none => (c, none)
    | some ab => spmm_csr_base c beta alpha ab.1 ab.2

/-- Pointwise effect of a successful forward scan over one row: position
`p` of the row receives `coeff * v` when the scanned entries contain
`(ccols[p], v)`, and is untouched otherwise.  Used to state what
`scanAdd` computes. -/
def applyEntries {T : Type} [Add T] [Mul T] (coeff : T) (entries : List (Nat × T)) :
    List Nat → List T → List T
  | c :: cs, v :: vs =>
    (match lookupCol c entries with
      | some a => v + coeff * a
      | none => v) :: applyEntries coeff entries cs vs
  | [], _ => []
  | _ :: _, [] => []

/-- The common shape of the row loops of `spadd_csr` and `spmm_csr`
(non-transposed paths), abstracted over the per-row computation: process
the zipped rows in order; a row error stops the loop, the remaining rows
stay untouched.  `spaddRowsLoop` and `spmmRowsLoop` are instances. -/
def rowsLoopG {T : Type}
    (step : List Nat × List T → List (Nat × T) → List T × Option OperationError) :
    List ((List Nat × List T) × List (Nat × T)) → List (List T) × Option OperationError
  | [] => ([], none)
  | (crow, arow) :: rest =>
    match step crow arow with
    | (cvals2, some e) => (cvals2 :: rest.map (fun q => q.1.2), some e)
    | (cvals2, none) =>
      let res := rowsLoopG step rest
      (cvals2 :: res.1, res.2)

theorem modifyAt_length {α : Type} (l : List α) (i : Nat) (f : α → α) :
    (modifyAt l i f).length = l.length := by
  induction l generalizing i with
  | nil => rfl
  | cons a t ih =>
    cases i with
    | zero => rfl
    | succ n => simp [modifyAt, ih]

theorem getD_modifyAt_self {α : Type} (l : List α) (i : Nat) (f : α → α) (d : α)
    (h : i < l.length) : (modifyAt l i f).getD i d = f (l.getD i d) := by
  induction l generalizing i with
  | nil => simp at h
  | cons a t ih =>
    cases i with
    | zero => rfl
    | succ n => simpa [modifyAt] using ih n (by simpa using h)

theorem getD_modifyAt_ne {α : Type} (l : List α) (i j : Nat) (f : α → α) (d : α)
    (h : i ≠ j) : (modifyAt l i f).getD j d = l.getD j d := by
  induction l generalizing i j with
  | nil => rfl
  | cons a t ih =>
    cases i with
    | zero =>
      cases j with
      | zero => exact absurd rfl h
      | succ m => rfl
    | succ n =>
      cases j with
      | zero => rfl
      | succ m => simpa [modifyAt] using ih n m (by omega)

theorem take_modifyAt {α : Type} (l : List α) (i : Nat) (f : α → α) :
    (modifyAt l i f).take i = l.take i := by
  induction l generalizing i with
  | nil => rfl
  | cons a t ih =>
    cases i with
    | zero => rfl
    | succ n => simp [modifyAt, ih]

theorem drop_modifyAt {α : Type} (l : List α) (i : Nat) (f : α → α) (d : α)
    (h : i < l.length) :
    (modifyAt l i f).drop i = f (l.getD i d) :: l.drop (i + 1) := by
  induction l generalizing i with
  | nil => simp at h
  | cons a t ih =>
    cases i with
    | zero => rfl
    | succ n => simpa [modifyAt] using ih n (by simpa using h)

theorem findCol_eq_none_iff (col : Nat) (l : List Nat) :
    findCol col l = none ↔ col ∉ l := by
  induction l with
  | nil => simp [findCol]
  | cons c cs ih =>
    by_cases hc : c = col
    · subst hc; simp [findCol]
    · constructor
      · intro h hmem
        rcases List.mem_cons.1 hmem with h1 | h1
        · exact hc h1.symm
        · have hn : findCol col cs = none := by
            simp [findCol, hc, Option.map_eq_none'] at h; exact h
          exact (ih.1 hn) h1
      · intro h
        have h2 : col ∉ cs := fun hm => h (List.mem_cons_of_mem _ hm)
        simp [findCol, hc, Option.map_eq_none', ih.2 h2]

theorem findCol_drop (col : Nat) (l : List Nat) (i : Nat)
    (h : findCol col l = some i) : l.drop i = col :: l.drop (i + 1) := by
  induction l generalizing i with
  | nil => simp [findCol] at h
  | cons c cs ih =>
    by_cases hc : c = col
    · subst hc
      simp [findCol] at h
      subst h; rfl
    · simp [findCol, hc] at h
      obtain ⟨i', hi', rfl⟩ := h
      simpa using ih i' hi'

theorem findCol_lt_length (col : Nat) (l : List Nat) (i : Nat)
    (h : findCol col l = some i) : i < l.length := by
  induction l generalizing i with
  | nil => simp [findCol] at h
  | cons c cs ih =>
    by_cases hc : c = col
    · subst hc; simp [findCol] at h; simp; omega
    · simp [findCol, hc] at h
      obtain ⟨i', hi', rfl⟩ := h
      have := ih i' hi'
      simp; omega

theorem findCol_mem (col : Nat) (l : List Nat) (h : col ∈ l) :
    ∃ i, findCol col l = some i := by
  cases hf : findCol col l with
  | none => exact absurd ((findCol_eq_none_iff col l).1 hf) (by simp [h])
  | some i => exact ⟨i, rfl⟩

theorem lookupCol_eq_none {α : Type} (col : Nat) (es : List (Nat × α))
    (h : ∀ p ∈ es, p.1 ≠ col) : lookupCol col es = none := by
  induction es with
  | nil => rfl
  | cons p rest ih =>
    have hp : p.1 ≠ col := h p (by simp)
    simp only [lookupCol]
    rw [if_neg hp]
    exact ih (fun q hq => h q (by simp [hq]))

theorem applyEntries_length {T : Type} [Add T] [Mul T] (coeff : T) (es : List (Nat × T))
    (ccols : List Nat) (cvals : List T) :
    (applyEntries coeff es ccols cvals).length = min ccols.length cvals.length := by
  induction ccols generalizing cvals with
  | nil => simp [applyEntries]
  | cons c cs ih =>
    cases cvals with
    | nil => simp [applyEntries]
    | cons v vs => simp [applyEntries, ih vs]; omega

theorem applyEntries_of_none {T : Type} [Add T] [Mul T] (coeff : T) (es : List (Nat × T))
    (ccols : List Nat) (cvals : List T) (hlen : ccols.length = cvals.length)
    (h : ∀ c ∈ ccols, lookupCol c es = none) :
    applyEntries coeff es ccols cvals = cvals := by
  induction ccols generalizing cvals with
  | nil =>
    cases cvals with
    | nil => rfl
    | cons v vs => simp at hlen
  | cons c cs ih =>
    cases cvals with
    | nil => simp at hlen
    | cons v vs =>
      simp only [applyEntries]
      rw [h c (by simp)]
      exact congrArg (v :: ·)
        (ih vs (by simpa using hlen) (fun x hx => h x (List.mem_cons_of_mem _ hx)))

theorem applyEntries_skip {T : Type} [Add T] [Mul T] (coeff : T) (col : Nat) (w : T)
    (es : List (Nat × T)) (ccols : List Nat) (cvals : List T)
    (h : ∀ c ∈ ccols, c ≠ col) :
    applyEntries coeff ((col, w) :: es) ccols cvals = applyEntries coeff es ccols cvals := by
  induction ccols generalizing cvals with
  | nil => cases cvals <;> rfl
  | cons c cs ih =>
    cases cvals with
    | nil => rfl
    | cons v vs =>
      have hc : ¬(col = c) := fun hh => (h c (by simp)) hh.symm
      simp only [applyEntries, lookupCol, if_neg hc]
      exact congrArg _ (ih vs (fun x hx => h x (List.mem_cons_of_mem _ hx)))

theorem applyEntries_append {T : Type} [Add T] [Mul T] (coeff : T) (es : List (Nat × T))
    (c1 c2 : List Nat) (v1 v2 : List T) (h : c1.length = v1.length) :
    applyEntries coeff es (c1 ++ c2) (v1 ++ v2) =
      applyEntries coeff es c1 v1 ++ applyEntries coeff es c2 v2 := by
  induction c1 generalizing v1 with
  | nil =>
    cases v1 with
    | nil => rfl
    | cons v vs => simp at h
  | cons c cs ih =>
    cases v1 with
    | nil => simp at h
    | cons v vs => simp [applyEntries, ih vs (by simpa using h)]

/-- The forward-advancing linear scan is complete on sorted rows: when
both column lists honour the CSR invariant (strictly ascending) and every
scanned column is present among `C`'s row columns, `scanAdd` finds every
entry, reports no error, and the final values are the pointwise
`applyEntries` update. -/
theorem scanAdd_spec {T : Type} [Add T] [Mul T] (err : OperationError) (coeff : T)
    (ccols : List Nat) (cvals : List T) (es : List (Nat × T))
    (hsort : ccols.Pairwise (· < ·))
    (hessort : (es.map Prod.fst).Pairwise (· < ·))
    (hmem : ∀ p ∈ es, p.1 ∈ ccols)
    (hlen : cvals.length = ccols.length) :
    scanAdd err coeff ccols cvals es = (applyEntries coeff es ccols cvals, none) := by
  induction es generalizing ccols cvals with
  | nil =>
    simp [scanAdd, applyEntries_of_none coeff [] ccols cvals hlen.symm
      (fun c _ => rfl)]
  | cons p rest ih =>
    obtain ⟨col, v⟩ := p
    have hcol : col ∈ ccols := hmem (col, v) (by simp)
    obtain ⟨idx, hfind⟩ := findCol_mem col ccols hcol
    have hdrop : ccols.drop idx = col :: ccols.drop (idx + 1) := findCol_drop _ _ _ hfind
    have hidx : idx < ccols.length := findCol_lt_length _ _ _ hfind
    have hidxv : idx < cvals.length := hlen ▸ hidx
    -- facts about the prefix and the strict tail of ccols at idx
    have htakedrop : ccols.take idx ++ ccols.drop idx = ccols := List.take_append_drop idx ccols
    have hpw : ∀ x ∈ ccols.take idx, ∀ y ∈ ccols.drop idx, x < y := by
      have hp : (ccols.take idx ++ ccols.drop idx).Pairwise (· < ·) := by
        rw [htakedrop]; exact hsort
      exact (List.pairwise_append.1 hp).2.2
    have htake_lt : ∀ x ∈ ccols.take idx, x < col :=
      fun x hx => hpw x hx col (hdrop ▸ List.mem_cons_self col _)
    have hdrop_pw : (ccols.drop idx).Pairwise (· < ·) :=
      List.Pairwise.sublist (List.drop_sublist idx ccols) hsort
    have htail_gt : ∀ x ∈ ccols.drop (idx + 1), col < x := by
      intro x hx
      exact (List.pairwise_cons.1 (hdrop ▸ hdrop_pw)).1 x hx
    have hes' := List.pairwise_cons.1 (show ((col, v).1 :: rest.map Prod.fst).Pairwise (· < ·) by
      simp only [List.map_cons] at hessort; exact hessort)
    have hrest_keys : ∀ q ∈ rest, col < q.1 := fun q hq =>
      hes'.1 q.1 (List.mem_map_of_mem Prod.fst hq)
    have hrest_sort : (rest.map Prod.fst).Pairwise (· < ·) := hes'.2
    have hrest_mem : ∀ q ∈ rest, q.1 ∈ ccols.drop idx := by
      intro q hq
      have hqc : q.1 ∈ ccols := hmem q (List.mem_cons_of_mem _ hq)
      have : q.1 ∈ ccols.take idx ++ ccols.drop idx := by rw [htakedrop]; exact hqc
      rcases List.mem_append.1 this with h1 | h1
      · exact absurd (htake_lt _ h1) (by have := hrest_keys q hq; omega)
      · exact h1
    -- the updated values array
    have hdropv : cvals.drop idx = cvals.getD idx v :: cvals.drop (idx + 1) := by
      rw [List.getD_eq_getElem?_getD, List.getElem?_eq_getElem hidxv]
      exact List.drop_eq_getElem_cons hidxv
    have hlen1 : (addAt cvals idx (coeff * v)).length = cvals.length :=
      modifyAt_length _ _ _
    have htake1 : (addAt cvals idx (coeff * v)).take idx = cvals.take idx :=
      take_modifyAt _ _ _
    have hdrop1 : (addAt cvals idx (coeff * v)).drop idx =
        (cvals.getD idx v + coeff * v) :: cvals.drop (idx + 1) :=
      drop_modifyAt cvals idx _ v hidxv
    -- apply the induction hypothesis to the suffix
    have ihres := ih (ccols.drop idx) ((addAt cvals idx (coeff * v)).drop idx)
      hdrop_pw hrest_sort hrest_mem
      (by rw [List.length_drop, List.length_drop, hlen1, hlen])
    -- unfold one step of scanAdd
    have hstep : scanAdd err coeff ccols cvals ((col, v) :: rest) =
        ((addAt cvals idx (coeff * v)).take idx ++
          (scanAdd err coeff (ccols.drop idx) ((addAt cvals idx (coeff * v)).drop idx) rest).1,
         (scanAdd err coeff (ccols.drop idx) ((addAt cvals idx (coeff * v)).drop idx) rest).2) := by
      simp [scanAdd, hfind]
    rw [hstep, ihres]
    -- compute the right-hand side
    have hrhs : applyEntries coeff ((col, v) :: rest) ccols cvals =
        cvals.take idx ++
          ((cvals.getD idx v + coeff * v) ::
            applyEntries coeff rest (ccols.drop (idx + 1)) (cvals.drop (idx + 1))) := by
      conv_lhs => rw [← htakedrop, ← List.take_append_drop idx cvals]
      rw [applyEntries_append coeff _ _ _ _ _
        (by rw [List.length_take, List.length_take, hlen])]
      congr 1
      · exact applyEntries_of_none coeff _ _ _
          (by rw [List.length_take, List.length_take, hlen])
          (fun c hc => lookupCol_eq_none c _ (by
            intro q hq
            rcases List.mem_cons.1 hq with h1 | h1
            · rw [h1]; exact fun hh => absurd hh (by have := htake_lt c hc; omega)
            · have := hrest_keys q h1
              have := htake_lt c hc
              intro hh; omega))
      · rw [hdrop, hdropv]
        simp only [applyEntries]
        rw [show lookupCol col ((col, v) :: rest) = some v by simp [lookupCol]]
        congr 1
        exact applyEntries_skip coeff col v rest _ _
          (fun c hc => by have := htail_gt c hc; omega)
    rw [hrhs, htake1]
    -- compute the left-hand side suffix
    rw [hdrop, hdrop1]
    simp only [applyEntries]
    rw [show lookupCol col rest = none from
      lookupCol_eq_none col rest (fun q hq => by have := hrest_keys q hq; omega)]

theorem applyEntries_getD {T : Type} [Zero T] [Add T] [Mul T] (coeff : T)
    (es : List (Nat × T)) (ccols : List Nat) (cvals : List T) (p : Nat)
    (hp : p < ccols.length) (hp2 : p < cvals.length) :
    (applyEntries coeff es ccols cvals).getD p 0 =
      (match lookupCol (ccols.getD p 0) es with
        | some a => cvals.getD p 0 + coeff * a
        | none => cvals.getD p 0) := by
  induction ccols generalizing cvals p with
  | nil => simp at hp
  | cons c cs ih =>
    cases cvals with
    | nil => simp at hp2
    | cons v vs =>
      cases p with
      | zero => simp [applyEntries]
      | succ n =>
        simp only [applyEntries, List.getD_cons_succ]
        exact ih vs n (by simpa using hp) (by simpa using hp2)

theorem foldl_add_eq {α : Type} {M : Type} [AddCommMonoid M] (h : α → M) (init : M)
    (l : List α) : l.foldl (fun acc p => acc + h p) init = init + (l.map h).sum := by
  induction l generalizing init with
  | nil => simp
  | cons a t ih => simp [ih, add_assoc]

theorem range_map_sum {M : Type} [AddCommMonoid M] (f : Nat → M) (n : Nat) :
    ((List.range n).map f).sum = ∑ k ∈ Finset.range n, f k := by
  induction n with
  | zero => simp
  | succ m ih => simp [List.range_succ, Finset.sum_range_succ, ih]

theorem sum_match_key {M : Type} [AddCommMonoid M] {T : Type} (es : List (Nat × T))
    (i : Nat) (g : T → M) (hsort : (es.map Prod.fst).Pairwise (· < ·)) :
    (es.map (fun p => if p.1 = i then g p.2 else 0)).sum =
      (match lookupCol i es with
        | some v => g v
        | none => (0 : M)) := by
  induction es with
  | nil => simp [lookupCol]
  | cons q rest ih =>
    obtain ⟨k, v⟩ := q
    have hes' := List.pairwise_cons.1 (show ((k, v).1 :: rest.map Prod.fst).Pairwise (· < ·) by
      simp only [List.map_cons] at hsort; exact hsort)
    by_cases hk : k = i
    · subst hk
      have hz : (rest.map (fun p => if p.1 = k then g p.2 else 0)).sum = 0 := by
        apply List.sum_eq_zero
        intro x hx
        rcases List.mem_map.1 hx with ⟨q, hq, rfl⟩
        have : k < q.1 := hes'.1 q.1 (List.mem_map_of_mem Prod.fst hq)
        simp [show ¬(q.1 = k) by omega]
      simp [lookupCol, hz]
    · simp only [List.map_cons, List.sum_cons, if_neg hk, lookupCol, hk, if_false]
      rw [zero_add]
      exact ih hes'.2

theorem sum_entries_lookup {M : Type} [AddCommMonoid M] {T : Type} (es : List (Nat × T))
    (g : Nat → T → M) (N : Nat)
    (hsort : (es.map Prod.fst).Pairwise (· < ·))
    (hlt : ∀ p ∈ es, p.1 < N) :
    (es.map (fun p => g p.1 p.2)).sum =
      ∑ k ∈ Finset.range N, (match lookupCol k es with
        | some v => g k v
        | none => (0 : M)) := by
  induction es with
  | nil => simp [lookupCol]
  | cons q rest ih =>
    obtain ⟨k, v⟩ := q
    have hes' := List.pairwise_cons.1 (show ((k, v).1 :: rest.map Prod.fst).Pairwise (· < ·) by
      simp only [List.map_cons] at hsort; exact hsort)
    have hkN : k ∈ Finset.range N := Finset.mem_range.2 (hlt (k, v) (by simp))
    have hcongr : ∀ k' ∈ Finset.range N,
        (match lookupCol k' ((k, v) :: rest) with
          | some w => g k' w
          | none => (0 : M)) =
        (if k' = k then g k v else
          (match lookupCol k' rest with
            | some w => g k' w
            | none => (0 : M))) := by
      intro k' _
      by_cases hk' : k' = k
      · subst hk'; simp [lookupCol]
      · rw [show lookupCol k' ((k, v) :: rest) = lookupCol k' rest by
          simp only [lookupCol]; rw [if_neg (fun h => hk' h.symm)]]
        rw [if_neg hk']
    rw [Finset.sum_congr rfl hcongr]
    rw [← Finset.add_sum_erase _ _ hkN, if_pos rfl]
    have herase : ∑ k' ∈ (Finset.range N).erase k,
        (if k' = k then g k v else
          (match lookupCol k' rest with
            | some w => g k' w
            | none => (0 : M))) =
        ∑ k' ∈ (Finset.range N).erase k,
          (match lookupCol k' rest with
            | some w => g k' w
            | none => (0 : M)) := by
      apply Finset.sum_congr rfl
      intro k' hk'
      rw [if_neg (Finset.ne_of_mem_erase hk')]
    rw [herase]
    have hrest := ih hes'.2 (fun p hp => hlt p (List.mem_cons_of_mem _ hp))
    have hrestk : (match lookupCol k rest with
        | some w => g k w
        | none => (0 : M)) = 0 := by
      rw [lookupCol_eq_none k rest (fun p hp => by
        have := hes'.1 p.1 (List.mem_map_of_mem Prod.fst hp); omega)]
    rw [List.map_cons, List.sum_cons, hrest, ← Finset.add_sum_erase _ _ hkN, hrestk, zero_add]

theorem spaddRowsLoop_eq_G {T : Type} [One T] [Add T] [Mul T] [DecidableEq T]
    (beta alpha : T) (L : List ((List Nat × List T) × List (Nat × T))) :
    spaddRowsLoop beta alpha L =
      rowsLoopG (fun cr ar => spaddRowStep beta alpha cr.1 cr.2 ar) L := by
  induction L with
  | nil => rfl
  | cons q rest ih =>
    obtain ⟨crow, arow⟩ := q
    simp only [spaddRowsLoop, rowsLoopG, ih]

theorem spmmRowsLoop_eq_G {T : Type} [Add T] [Mul T] (beta alpha : T) (b : CsrMatrix T)
    (L : List ((List Nat × List T) × List (Nat × T))) :
    spmmRowsLoop beta alpha b L =
      rowsLoopG (fun cr ar => spmmRowStep beta alpha b cr.1 cr.2 ar) L := by
  induction L with
  | nil => rfl
  | cons q rest ih =>
    obtain ⟨crow, arow⟩ := q
    simp only [spmmRowsLoop, rowsLoopG, ih]

theorem rowsLoopG_ok {T : Type}
    (step : List Nat × List T → List (Nat × T) → List T × Option OperationError)
    (L : List ((List Nat × List T) × List (Nat × T)))
    (h : ∀ q ∈ L, (step q.1 q.2).2 = none) :
    rowsLoopG step L = (L.map (fun q => (step q.1 q.2).1), none) := by
  induction L with
  | nil => rfl
  | cons q rest ih =>
    obtain ⟨crow, arow⟩ := q
    have hq := h (crow, arow) (by simp)
    simp only [rowsLoopG]
    rw [show step crow arow = ((step crow arow).1, none) from
      Prod.ext rfl hq]
    simp [ih (fun q hq' => h q (List.mem_cons_of_mem _ hq'))]

theorem rowsLoopG_length {T : Type}
    (step : List Nat × List T → List (Nat × T) → List T × Option OperationError)
    (L : List ((List Nat × List T) × List (Nat × T))) :
    (rowsLoopG step L).1.length = L.length := by
  induction L with
  | nil => rfl
  | cons q rest ih =>
    obtain ⟨crow, arow⟩ := q
    simp only [rowsLoopG]
    cases hs : step crow arow with
    | mk v r =>
      cases r with
      | none => simpa using ih
      | some e => simp

theorem getD_map_row {T : Type} (rest : List ((List Nat × List T) × List (Nat × T)))
    (n : Nat) :
    (rest.map (fun q => q.1.2)).getD n [] = (rest.getD n (([], []), [])).1.2 := by
  induction rest generalizing n with
  | nil => rfl
  | cons q t ih =>
    cases n with
    | zero => rfl
    | succ m => simpa using ih m

theorem rowsLoopG_err {T : Type}
    (step : List Nat × List T → List (Nat × T) → List T × Option OperationError)
    (L : List ((List Nat × List T) × List (Nat × T))) (vals : List (List T))
    (e : OperationError) (h : rowsLoopG step L = (vals, some e)) :
    ∃ i0, i0 < L.length ∧
      (∀ m < i0, (step (L.getD m (([], []), [])).1 (L.getD m (([], []), [])).2).2 = none ∧
        vals.getD m [] = (step (L.getD m (([], []), [])).1 (L.getD m (([], []), [])).2).1) ∧
      (step (L.getD i0 (([], []), [])).1 (L.getD i0 (([], []), [])).2).2 = some e ∧
      vals.getD i0 [] = (step (L.getD i0 (([], []), [])).1 (L.getD i0 (([], []), [])).2).1 ∧
      (∀ m, i0 < m → vals.getD m [] = (L.getD m (([], []), [])).1.2) := by
  induction L generalizing vals with
  | nil => simp [rowsLoopG] at h
  | cons q rest ih =>
    obtain ⟨crow, arow⟩ := q
    simp only [rowsLoopG] at h
    cases hs : step (crow, arow).1 (crow, arow).2 with
    | mk v r =>
      cases r with
      | some e' =>
        rw [hs] at h
        have hv : vals = v :: rest.map (fun q => q.1.2) := (Prod.mk.injEq _ _ _ _ ▸ h).1.symm
        have he : e' = e := by
          have := (Prod.mk.injEq _ _ _ _ ▸ h).2
          exact Option.some.inj this
        refine ⟨0, by simp, by omega, ?_, ?_, ?_⟩
        · simp [hs, he]
        · simp [hv, hs]
        · intro m hm
          obtain ⟨m', rfl⟩ : ∃ m', m = m' + 1 := ⟨m - 1, by omega⟩
          simp only [hv, List.getD_cons_succ]
          exact getD_map_row rest m'
      | none =>
        rw [hs] at h
        have hv : vals = v :: (rowsLoopG step rest).1 := by
          have := (Prod.mk.injEq _ _ _ _ ▸ h).1
          exact this.symm
        have htail : rowsLoopG step rest = ((rowsLoopG step rest).1, some e) := by
          have h2 : (rowsLoopG step rest).2 = some e := (Prod.mk.injEq _ _ _ _ ▸ h).2
          exact Prod.ext rfl h2
        obtain ⟨i0, hi0, hbefore, herr, hat, hafter⟩ := ih _ htail
        refine ⟨i0 + 1, by simp; omega, ?_, ?_, ?_, ?_⟩
        · intro m hm
          cases m with
          | zero => exact ⟨hs ▸ rfl, by simp [hv, hs]⟩
          | succ m' =>
            have := hbefore m' (by omega)
            simpa [hv] using this
        · simpa using herr
        · simpa [hv] using hat
        · intro m hm
          obtain ⟨m', rfl⟩ : ∃ m', m = m' + 1 := ⟨m - 1, by omega⟩
          have := hafter m' (by omega)
          simpa [hv] using this

theorem getD_zip {A B : Type} (l1 : List A) (l2 : List B) (d1 : A) (d2 : B) (m : Nat)
    (h : m < (l1.zip l2).length) :
    (l1.zip l2).getD m (d1, d2) = (l1.getD m d1, l2.getD m d2) := by
  induction l1 generalizing l2 m with
  | nil => simp at h
  | cons a t ih =>
    cases l2 with
    | nil => simp at h
    | cons b t2 =>
      cases m with
      | zero => rfl
      | succ n => simpa using ih t2 n (by simpa using h)

theorem zip_map_getD {T : Type} (lc : List (List Nat)) (lv : List (List T)) (m : Nat) :
    ((lc.zip lv).map (fun p => p.1.zip p.2)).getD m [] =
      (lc.getD m []).zip (lv.getD m []) := by
  induction lc generalizing lv m with
  | nil => simp
  | cons c cs ih =>
    cases lv with
    | nil => simp
    | cons v vs =>
      cases m with
      | zero => rfl
      | succ n => simpa using ih vs n

theorem rowsEntries_getD {T : Type} (a : CsrMatrix T) (m : Nat) :
    a.rowsEntries.getD m [] = a.rowEntries m :=
  zip_map_getD a.rowCols a.rowVals m

theorem rowsEntries_length {T : Type} (a : CsrMatrix T) :
    a.rowsEntries.length = min a.rowCols.length a.rowVals.length := by
  simp [CsrMatrix.rowsEntries]

theorem lookupCol_zip {T : Type} [Zero T] (j : Nat) (keys : List Nat) (vals : List T)
    (hlen : keys.length = vals.length) :
    lookupCol j (keys.zip vals) =
      (match findCol j keys with
        | some p => some (vals.getD p 0)
        | none => none) := by
  induction keys generalizing vals with
  | nil => cases vals <;> simp [lookupCol, findCol]
  | cons k ks ih =>
    cases vals with
    | nil => simp at hlen
    | cons v vs =>
      by_cases hk : k = j
      · subst hk; simp [lookupCol, findCol]
      · rw [show (k :: ks).zip (v :: vs) = (k, v) :: ks.zip vs from rfl]
        simp only [lookupCol, findCol, if_neg hk]
        rw [ih vs (by simpa using hlen)]
        cases hf : findCol j ks with
        | none => simp
        | some p => simp

theorem rowEntries_keys {T : Type} (m : CsrMatrix T) (i : Nat)
    (hlen : (m.rowVals.getD i []).length = (m.rowCols.getD i []).length) :
    (m.rowEntries i).map Prod.fst = m.rowCols.getD i [] :=
  List.map_fst_zip _ _ (by omega)

theorem zipWith_const_right {A B : Type} (f : A → B → B) (hf : ∀ x y, f x y = y)
    (l1 : List A) (l2 : List B) (hlen : l1.length = l2.length) :
    List.zipWith f l1 l2 = l2 := by
  induction l1 generalizing l2 with
  | nil => cases l2 with
    | nil => rfl
    | cons b t => simp at hlen
  | cons a t ih =>
    cases l2 with
    | nil => simp at hlen
    | cons b t2 => simp [hf, ih t2 (by simpa using hlen)]

theorem applyEntries_zip_self {T : Type} [Add T] [Mul T] (coeff : T) (keys : List Nat)
    (avals : List T) (cvals : List T)
    (hsort : keys.Pairwise (· < ·)) (h1 : avals.length = keys.length)
    (h2 : cvals.length = keys.length) :
    applyEntries coeff (keys.zip avals) keys cvals =
      List.zipWith (fun x y => x + coeff * y) cvals avals := by
  induction keys generalizing avals cvals with
  | nil =>
    cases avals with
    | nil => cases cvals <;> rfl
    | cons => simp at h1
  | cons k ks ih =>
    cases avals with
    | nil => simp at h1
    | cons y ys =>
      cases cvals with
      | nil => simp at h2
      | cons x xs =>
        have hpc := List.pairwise_cons.1 hsort
        simp only [List.zip_cons_cons, applyEntries, lookupCol, if_pos rfl,
          List.zipWith_cons_cons]
        congr 1
        rw [applyEntries_skip coeff k y (ks.zip ys) ks xs
          (fun c hc => by have := hpc.1 c hc; omega)]
        exact ih ys xs hpc.2 (by simpa using h1) (by simpa using h2)

theorem getD_of_lt {α : Type} (l : List α) (d d' : α) (m : Nat) (h : m < l.length) :
    l.getD m d = l.getD m d' := by
  induction l generalizing m with
  | nil => simp at h
  | cons a t ih =>
    cases m with
    | zero => rfl
    | succ n => simpa using ih n (by simpa using h)

theorem getD_map_lt {A B : Type} (f : A → B) (l : List A) (d : B) (d' : A) (m : Nat)
    (h : m < l.length) : (l.map f).getD m d = f (l.getD m d') := by
  induction l generalizing m with
  | nil => simp at h
  | cons a t ih =>
    cases m with
    | zero => rfl
    | succ n => simpa using ih n (by simpa using h)

theorem findCol_getD (col : Nat) (l : List Nat) (p : Nat) (d : Nat)
    (h : findCol col l = some p) : l.getD p d = col := by
  induction l generalizing p with
  | nil => simp [findCol] at h
  | cons c cs ih =>
    by_cases hc : c = col
    · subst hc
      simp [findCol] at h
      simp [← h]
    · simp [findCol, hc] at h
      obtain ⟨p', hp', rfl⟩ := h
      simpa using ih p' hp'

theorem CsrWF.sorted_any {T : Type} {m : CsrMatrix T} (h : CsrWF m) (i : Nat) :
    (m.rowCols.getD i []).Pairwise (· < ·) := by
  by_cases hi : i < m.nrows
  · exact h.sorted i hi
  · rw [List.getD_eq_default _ _ (by rw [h.colsLen]; omega)]
    exact List.Pairwise.nil

theorem CsrWF.rowLen_any {T : Type} {m : CsrMatrix T} (h : CsrWF m) (i : Nat) :
    (m.rowVals.getD i []).length = (m.rowCols.getD i []).length := by
  by_cases hi : i < m.nrows
  · exact h.rowLen i hi
  · rw [List.getD_eq_default _ _ (by rw [h.valsLen]; omega),
      List.getD_eq_default _ _ (by rw [h.colsLen]; omega)]
    rfl

theorem CsrWF.colLt_any {T : Type} {m : CsrMatrix T} (h : CsrWF m) (i : Nat) :
    ∀ c ∈ m.rowCols.getD i [], c < m.ncols := by
  by_cases hi : i < m.nrows
  · exact h.colLt i hi
  · rw [List.getD_eq_default _ _ (by rw [h.colsLen]; omega)]
    intro c hc
    simp at hc

theorem getEntry_eq_findCol {T : Type} [Zero T] (m : CsrMatrix T) (i j : Nat)
    (hlen : (m.rowVals.getD i []).length = (m.rowCols.getD i []).length) :
    m.getEntry i j =
      (match findCol j (m.rowCols.getD i []) with
        | some p => (m.rowVals.getD i []).getD p 0
        | none => 0) := by
  unfold CsrMatrix.getEntry CsrMatrix.rowEntries
  rw [lookupCol_zip j _ _ hlen.symm]
  cases findCol j (m.rowCols.getD i []) <;> simp

theorem getEntry_not_mem {T : Type} [Zero T] (m : CsrMatrix T) (i j : Nat)
    (h : j ∉ m.rowCols.getD i []) : m.getEntry i j = 0 := by
  unfold CsrMatrix.getEntry
  rw [lookupCol_eq_none j _ (fun p hp => by
    have := (List.of_mem_zip hp).1
    intro hh
    exact h (hh ▸ this))]
  rfl

theorem spaddRowStep_spec {T : Type} [One T] [Add T] [Mul T] [DecidableEq T]
    (beta alpha : T) (ccols : List Nat) (cvals : List T) (arow : List (Nat × T))
    (hsort : ccols.Pairwise (· < ·)) (hasort : (arow.map Prod.fst).Pairwise (· < ·))
    (hmem : ∀ p ∈ arow, p.1 ∈ ccols) (hlen : cvals.length = ccols.length) :
    spaddRowStep beta alpha ccols cvals arow =
      (applyEntries alpha arow ccols
        (if beta ≠ 1 then cvals.map (fun v => v * beta) else cvals), none) := by
  unfold spaddRowStep
  exact scanAdd_spec _ _ _ _ _ hsort hasort hmem
    (by by_cases h : beta = 1 <;> simp [h, hlen])

theorem spmmRowKLoop_spec {T : Type} [Add T] [Mul T] (alpha : T) (b : CsrMatrix T)
    (ccols : List Nat) (arow : List (Nat × T)) (cvals : List T)
    (hsort : ccols.Pairwise (· < ·))
    (hb : ∀ p ∈ arow, ((b.rowEntries p.1).map Prod.fst).Pairwise (· < ·) ∧
      ∀ q ∈ b.rowEntries p.1, q.1 ∈ ccols)
    (hlen : cvals.length = ccols.length) :
    spmmRowKLoop alpha b ccols arow cvals =
      (arow.foldl (fun cv p => applyEntries (alpha * p.2) (b.rowEntries p.1) ccols cv) cvals,
       none) := by
  induction arow generalizing cvals with
  | nil => simp [spmmRowKLoop]
  | cons p rest ih =>
    obtain ⟨k, aik⟩ := p
    have hbp := hb (k, aik) (by simp)
    have hscan := scanAdd_spec spmm_csr_unexpected_entry (alpha * aik) ccols cvals
      (b.rowEntries k) hsort hbp.1 hbp.2 hlen
    simp only [spmmRowKLoop, hscan, List.foldl_cons]
    exact ih _ (fun q hq => hb q (by simp [hq]))
      (by rw [applyEntries_length]; omega)

theorem kloop_fold_length {T : Type} [Add T] [Mul T] (alpha : T) (b : CsrMatrix T)
    (ccols : List Nat) (arow : List (Nat × T)) (cvals : List T)
    (hlen : cvals.length = ccols.length) :
    (arow.foldl (fun cv p => applyEntries (alpha * p.2) (b.rowEntries p.1) ccols cv)
      cvals).length = ccols.length := by
  induction arow generalizing cvals with
  | nil => simpa using hlen
  | cons q rest ih =>
    rw [List.foldl_cons]
    exact ih _ (by rw [applyEntries_length]; omega)

theorem kloop_fold_getD {T : Type} [CommRing T] (alpha : T) (b : CsrMatrix T)
    (ccols : List Nat) (arow : List (Nat × T)) (cvals : List T) (p : Nat)
    (hp : p < ccols.length) (hlen : cvals.length = ccols.length) :
    ((arow.foldl (fun cv q => applyEntries (alpha * q.2) (b.rowEntries q.1) ccols cv)
      cvals).getD p 0) =
      cvals.getD p 0 +
        (arow.map (fun q =>
          alpha * q.2 * (lookupCol (ccols.getD p 0) (b.rowEntries q.1)).getD 0)).sum := by
  induction arow generalizing cvals with
  | nil => simp
  | cons q rest ih =>
    rw [List.foldl_cons, ih _ (by rw [applyEntries_length]; omega)]
    rw [applyEntries_getD _ _ _ _ p hp (by omega)]
    cases hlk : lookupCol (ccols.getD p 0) (b.rowEntries q.1) with
    | some a => simp only [hlk, List.map_cons, List.sum_cons, Option.getD_some]; rw [add_assoc]
    | none =>
      simp only [hlk, List.map_cons, List.sum_cons, Option.getD_none]
      rw [mul_zero, zero_add]

theorem zipped_getD {T : Type} (c a : CsrMatrix T) (m : Nat)
    (h : m < ((c.rowCols.zip c.rowVals).zip a.rowsEntries).length) :
    ((c.rowCols.zip c.rowVals).zip a.rowsEntries).getD m (([], []), []) =
      ((c.rowCols.getD m [], c.rowVals.getD m []), a.rowEntries m) := by
  rw [getD_zip _ _ ([], []) [] m h]
  rw [getD_zip _ _ [] [] m (by simp at h ⊢; omega)]
  rw [rowsEntries_getD]

theorem getD_eq_getElem_of_lt {α : Type} (l : List α) (d : α) (m : Nat)
    (h : m < l.length) : l.getD m d = l[m] := by
  rw [List.getD_eq_getElem?_getD, List.getElem?_eq_getElem h]
  rfl

/-- Success of the non-transposed sparse-sparse kernel: when all three
matrices are well-formed, dimensions are compatible, and `C`'s pattern
contains every position of the structural product of `A` and `B`, the
kernel reports no error, preserves `C`'s pattern, and its row `i` values
are the beta-scaled originals accumulated with the scanned products. -/
theorem spmm_csr_base_ok {T : Type} [CommRing T] (c a b : CsrMatrix T) (beta alpha : T)
    (hc : CsrWF c) (ha : CsrWF a) (hb : CsrWF b)
    (hcr : c.nrows = a.nrows)
    (hcont : ∀ i < c.nrows, ∀ k ∈ a.rowCols.getD i [], ∀ j ∈ b.rowCols.getD k [],
      j ∈ c.rowCols.getD i []) :
    (spmm_csr_base c beta alpha a b).2 = none ∧
    (spmm_csr_base c beta alpha a b).1.nrows = c.nrows ∧
    (spmm_csr_base c beta alpha a b).1.ncols = c.ncols ∧
    (spmm_csr_base c beta alpha a b).1.rowCols = c.rowCols ∧
    (spmm_csr_base c beta alpha a b).1.rowVals.length = c.nrows ∧
    ∀ i, i < c.nrows → (spmm_csr_base c beta alpha a b).1.rowVals.getD i [] =
      ((a.rowEntries i).foldl
        (fun cv p => applyEntries (alpha * p.2) (b.rowEntries p.1) (c.rowCols.getD i []) cv)
        ((c.rowVals.getD i []).map (fun v => beta * v))) := by
  have hrowspec : ∀ m, m < c.nrows →
      spmmRowStep beta alpha b (c.rowCols.getD m []) (c.rowVals.getD m [])
        (a.rowEntries m) =
        ((a.rowEntries m).foldl
          (fun cv p => applyEntries (alpha * p.2) (b.rowEntries p.1) (c.rowCols.getD m []) cv)
          ((c.rowVals.getD m []).map (fun v => beta * v)), none) := by
    intro m hm
    unfold spmmRowStep
    apply spmmRowKLoop_spec
    · exact hc.sorted_any m
    · intro p hp
      have hpk : p.1 ∈ a.rowCols.getD m [] := (List.of_mem_zip hp).1
      refine ⟨?_, ?_⟩
      · rw [rowEntries_keys b p.1 (hb.rowLen_any p.1)]
        exact hb.sorted_any p.1
      · intro q hq
        exact hcont m hm p.1 hpk q.1 (List.of_mem_zip hq).1
    · rw [List.length_map]; exact hc.rowLen_any m
  have hlenL : ((c.rowCols.zip c.rowVals).zip a.rowsEntries).length = c.nrows := by
    rw [List.length_zip, List.length_zip, rowsEntries_length,
      hc.colsLen, hc.valsLen, ha.colsLen, ha.valsLen, hcr]
    omega
  have hstep : ∀ q ∈ (c.rowCols.zip c.rowVals).zip a.rowsEntries,
      (spmmRowStep beta alpha b q.1.1 q.1.2 q.2).2 = none := by
    intro q hq
    obtain ⟨m, hm, rfl⟩ := List.mem_iff_getElem.1 hq
    have heq := zipped_getD c a m hm
    rw [getD_eq_getElem_of_lt _ _ _ hm] at heq
    rw [heq]
    have hm' : m < c.nrows := by omega
    show (spmmRowStep beta alpha b (c.rowCols.getD m []) (c.rowVals.getD m [])
      (a.rowEntries m)).2 = none
    rw [hrowspec m hm']
  have hloop := rowsLoopG_ok (fun cr ar => spmmRowStep beta alpha b cr.1 cr.2 ar)
    ((c.rowCols.zip c.rowVals).zip a.rowsEntries) hstep
  have hdrop : c.rowVals.drop ((c.rowCols.zip c.rowVals).zip a.rowsEntries).length = [] :=
    List.drop_eq_nil_of_le (by rw [hlenL, hc.valsLen])
  have hbase : spmm_csr_base c beta alpha a b =
      ({ c with rowVals :=
        (((c.rowCols.zip c.rowVals).zip a.rowsEntries).map
          (fun q => (spmmRowStep beta alpha b q.1.1 q.1.2 q.2).1)) }, none) := by
    unfold spmm_csr_base
    simp only [spmmRowsLoop_eq_G, hloop, hdrop, List.append_nil]
  rw [hbase]
  refine ⟨rfl, rfl, rfl, rfl, by simp [hlenL], ?_⟩
  intro i hi
  have hiL : i < ((c.rowCols.zip c.rowVals).zip a.rowsEntries).length := by omega
  simp only
  rw [getD_map_lt _ _ [] (([], []), []) i hiL, zipped_getD c a i hiL]
  show (spmmRowStep beta alpha b (c.rowCols.getD i []) (c.rowVals.getD i [])
    (a.rowEntries i)).1 = _
  rw [hrowspec i hi]

/-- Entry-level specification of the non-transposed sparse-sparse
kernel: under the same conditions as `spmm_csr_base_ok`, every dense
entry of the result equals `beta * C[i,j] + alpha * (A * B)[i,j]`. -/
theorem spmm_csr_base_entry {T : Type} [CommRing T] (c a b : CsrMatrix T)
    (beta alpha : T) (hc : CsrWF c) (ha : CsrWF a) (hb : CsrWF b)
    (hcr : c.nrows = a.nrows)
    (hcont : ∀ i < c.nrows, ∀ k ∈ a.rowCols.getD i [], ∀ j ∈ b.rowCols.getD k [],
      j ∈ c.rowCols.getD i []) (i j : Nat) :
    (spmm_csr_base c beta alpha a b).1.getEntry i j =
      beta * c.getEntry i j +
        alpha * ∑ k ∈ Finset.range a.ncols, a.getEntry i k * b.getEntry k j := by
  obtain ⟨h2, hnr, hnc, hcols, hvlen, hvals⟩ :=
    spmm_csr_base_ok c a b beta alpha hc ha hb hcr hcont
  have hkeys : (a.rowEntries i).map Prod.fst = a.rowCols.getD i [] :=
    rowEntries_keys a i (ha.rowLen_any i)
  by_cases hi : i < c.nrows
  · have hflen : ((a.rowEntries i).foldl
        (fun cv p => applyEntries (alpha * p.2) (b.rowEntries p.1) (c.rowCols.getD i []) cv)
        ((c.rowVals.getD i []).map (fun v => beta * v))).length =
        (c.rowCols.getD i []).length :=
      kloop_fold_length _ _ _ _ _ (by rw [List.length_map]; exact hc.rowLen_any i)
    have hreslen : ((spmm_csr_base c beta alpha a b).1.rowVals.getD i []).length =
        ((spmm_csr_base c beta alpha a b).1.rowCols.getD i []).length := by
      rw [hvals i hi, hcols, hflen]
    by_cases hj : j ∈ c.rowCols.getD i []
    · obtain ⟨p, hfind⟩ := findCol_mem j _ hj
      have hp : p < (c.rowCols.getD i []).length := findCol_lt_length _ _ _ hfind
      have hcolp : (c.rowCols.getD i []).getD p 0 = j := findCol_getD _ _ _ _ hfind
      rw [getEntry_eq_findCol _ i j hreslen, hcols, hfind]
      rw [hvals i hi]
      dsimp only
      rw [kloop_fold_getD alpha b _ _ _ p hp (by rw [List.length_map]; exact hc.rowLen_any i)]
      rw [getD_map_lt _ _ 0 0 p (by rw [hc.rowLen_any i]; omega)]
      have hcget : c.getEntry i j = (c.rowVals.getD i []).getD p 0 := by
        rw [getEntry_eq_findCol c i j (hc.rowLen_any i), hfind]
      rw [hcolp, ← hcget]
      congr 1
      rw [sum_entries_lookup (a.rowEntries i)
        (fun k v => alpha * v * (lookupCol j (b.rowEntries k)).getD 0) a.ncols
        (by rw [hkeys]; exact ha.sorted_any i)
        (fun p' hp' => ha.colLt_any i p'.1 (List.of_mem_zip hp').1)]
      rw [Finset.mul_sum]
      apply Finset.sum_congr rfl
      intro k _
      show (match lookupCol k (a.rowEntries i) with
        | some v => alpha * v * (lookupCol j (b.rowEntries k)).getD 0
        | none => 0) = alpha * (a.getEntry i k * b.getEntry k j)
      unfold CsrMatrix.getEntry
      cases hlk : lookupCol k (a.rowEntries i) with
      | some v => simp [mul_assoc]
      | none => simp
    · rw [getEntry_not_mem _ i j (by rw [hcols]; exact hj), getEntry_not_mem c i j hj]
      have hzero : ∑ k ∈ Finset.range a.ncols, a.getEntry i k * b.getEntry k j = 0 := by
        apply Finset.sum_eq_zero
        intro k _
        by_cases hk : k ∈ a.rowCols.getD i []
        · rw [getEntry_not_mem b k j (fun hjb => hj (hcont i hi k hk j hjb)), mul_zero]
        · rw [getEntry_not_mem a i k hk, zero_mul]
      rw [hzero, mul_zero, mul_zero, add_zero]
  · have hcc : c.rowCols.getD i [] = [] :=
      List.getD_eq_default _ _ (by rw [hc.colsLen]; omega)
    have hac : a.rowCols.getD i [] = [] :=
      List.getD_eq_default _ _ (by rw [ha.colsLen, ← hcr]; omega)
    rw [getEntry_not_mem _ i j (by rw [hcols, hcc]; simp),
      getEntry_not_mem c i j (by rw [hcc]; simp)]
    have hzero : ∑ k ∈ Finset.range a.ncols, a.getEntry i k * b.getEntry k j = 0 := by
      apply Finset.sum_eq_zero
      intro k _
      rw [getEntry_not_mem a i k (by rw [hac]; simp), zero_mul]
    rw [hzero, mul_zero, mul_zero, add_zero]

theorem getD_drop_add {α : Type} (l : List α) (n k : Nat) (d : α) :
    (l.drop n).getD k d = l.getD (n + k) d := by
  induction n generalizing l with
  | zero => simp
  | succ m ih =>
    cases l with
    | nil => simp
    | cons x t =>
      rw [List.drop_succ_cons, ih t]
      rw [show m + 1 + k = (m + k) + 1 by omega]
      rfl

/-- Success of the non-transposed general path of `spadd_csr`: when both
matrices are well-formed, the pattern objects differ (so the fast path is
not taken), rows match, and every stored column of `A` appears in the
corresponding row of `C`, the kernel reports no error, preserves `C`'s
pattern, and updates each row by `applyEntries`. -/
theorem spadd_csr_nontrans_ok {T : Type} [One T] [Add T] [Mul T] [DecidableEq T]
    (c a : CsrMatrix T) (beta alpha : T) (hc : CsrWF c) (ha : CsrWF a)
    (hpid : c.pid ≠ a.pid) (hcr : c.nrows = a.nrows)
    (hcont : ∀ i < c.nrows, ∀ k ∈ a.rowCols.getD i [], k ∈ c.rowCols.getD i []) :
    (spadd_csr c beta alpha false a).2 = none ∧
    (spadd_csr c beta alpha false a).1.nrows = c.nrows ∧
    (spadd_csr c beta alpha false a).1.ncols = c.ncols ∧
    (spadd_csr c beta alpha false a).1.rowCols = c.rowCols ∧
    (spadd_csr c beta alpha false a).1.rowVals.length = c.nrows ∧
    ∀ i, i < c.nrows → (spadd_csr c beta alpha false a).1.rowVals.getD i [] =
      applyEntries alpha (a.rowEntries i) (c.rowCols.getD i [])
        (if beta ≠ 1 then (c.rowVals.getD i []).map (fun v => v * beta)
         else c.rowVals.getD i []) := by
  have hrowspec : ∀ m, m < c.nrows →
      spaddRowStep beta alpha (c.rowCols.getD m []) (c.rowVals.getD m [])
        (a.rowEntries m) =
        (applyEntries alpha (a.rowEntries m) (c.rowCols.getD m [])
          (if beta ≠ 1 then (c.rowVals.getD m []).map (fun v => v * beta)
           else c.rowVals.getD m []), none) := by
    intro m hm
    apply spaddRowStep_spec
    · exact hc.sorted_any m
    · rw [rowEntries_keys a m (ha.rowLen_any m)]
      exact ha.sorted_any m
    · intro p hp
      exact hcont m hm p.1 (List.of_mem_zip hp).1
    · exact hc.rowLen_any m
  have hlenL : ((c.rowCols.zip c.rowVals).zip a.rowsEntries).length = c.nrows := by
    rw [List.length_zip, List.length_zip, rowsEntries_length,
      hc.colsLen, hc.valsLen, ha.colsLen, ha.valsLen, hcr]
    omega
  have hstep : ∀ q ∈ (c.rowCols.zip c.rowVals).zip a.rowsEntries,
      (spaddRowStep beta alpha q.1.1 q.1.2 q.2).2 = none := by
    intro q hq
    obtain ⟨m, hm, rfl⟩ := List.mem_iff_getElem.1 hq
    have heq := zipped_getD c a m hm
    rw [getD_eq_getElem_of_lt _ _ _ hm] at heq
    rw [heq]
    have hm' : m < c.nrows := by omega
    show (spaddRowStep beta alpha (c.rowCols.getD m []) (c.rowVals.getD m [])
      (a.rowEntries m)).2 = none
    rw [hrowspec m hm']
  have hloop := rowsLoopG_ok (fun cr ar => spaddRowStep beta alpha cr.1 cr.2 ar)
    ((c.rowCols.zip c.rowVals).zip a.rowsEntries) hstep
  have hdrop : c.rowVals.drop ((c.rowCols.zip c.rowVals).zip a.rowsEntries).length = [] :=
    List.drop_eq_nil_of_le (by rw [hlenL, hc.valsLen])
  have hbase : spadd_csr c beta alpha false a =
      ({ c with rowVals :=
        (((c.rowCols.zip c.rowVals).zip a.rowsEntries).map
          (fun q => (spaddRowStep beta alpha q.1.1 q.1.2 q.2).1)) }, none) := by
    unfold spadd_csr
    rw [if_neg hpid]
    simp only [Bool.false_eq_true, if_false, spaddRowsLoop_eq_G, hloop, hdrop,
      List.append_nil]
  rw [hbase]
  refine ⟨rfl, rfl, rfl, rfl, by simp [hlenL], ?_⟩
  intro i hi
  have hiL : i < ((c.rowCols.zip c.rowVals).zip a.rowsEntries).length := by omega
  simp only
  rw [getD_map_lt _ _ [] (([], []), []) i hiL, zipped_getD c a i hiL]
  show (spaddRowStep beta alpha (c.rowCols.getD i []) (c.rowVals.getD i [])
    (a.rowEntries i)).1 = _
  rw [hrowspec i hi]

/-- Partial-failure characterization of the non-transposed general path
of `spadd_csr`: on an `InvalidPattern` error the kernel has fully
updated every row before the offending one, has left the offending row
in its partially updated state, and has not touched any later row — in
particular the original contents of `C` are not restored. -/
theorem spadd_csr_err_partial {T : Type} [One T] [Add T] [Mul T] [DecidableEq T]
    (c a : CsrMatrix T) (beta alpha : T) (e : OperationError) (hpid : c.pid ≠ a.pid)
    (herr : (spadd_csr c beta alpha false a).2 = some e) :
    ∃ i0, i0 < ((c.rowCols.zip c.rowVals).zip a.rowsEntries).length ∧
      (∀ m < i0,
        (spaddRowStep beta alpha (c.rowCols.getD m []) (c.rowVals.getD m [])
          (a.rowEntries m)).2 = none ∧
        (spadd_csr c beta alpha false a).1.rowVals.getD m [] =
          (spaddRowStep beta alpha (c.rowCols.getD m []) (c.rowVals.getD m [])
            (a.rowEntries m)).1) ∧
      (spaddRowStep beta alpha (c.rowCols.getD i0 []) (c.rowVals.getD i0 [])
        (a.rowEntries i0)).2 = some e ∧
      (spadd_csr c beta alpha false a).1.rowVals.getD i0 [] =
        (spaddRowStep beta alpha (c.rowCols.getD i0 []) (c.rowVals.getD i0 [])
          (a.rowEntries i0)).1 ∧
      ∀ m, i0 < m → (spadd_csr c beta alpha false a).1.rowVals.getD m [] =
        c.rowVals.getD m [] := by
  have hassemble : spadd_csr c beta alpha false a =
      ({ c with rowVals :=
          (rowsLoopG (fun cr ar => spaddRowStep beta alpha cr.1 cr.2 ar)
            ((c.rowCols.zip c.rowVals).zip a.rowsEntries)).1 ++
          c.rowVals.drop ((c.rowCols.zip c.rowVals).zip a.rowsEntries).length },
        (rowsLoopG (fun cr ar => spaddRowStep beta alpha cr.1 cr.2 ar)
          ((c.rowCols.zip c.rowVals).zip a.rowsEntries)).2) := by
    unfold spadd_csr
    rw [if_neg hpid]
    simp only [Bool.false_eq_true, if_false, spaddRowsLoop_eq_G]
  rw [hassemble] at herr ⊢
  simp only at herr ⊢
  set L := (c.rowCols.zip c.rowVals).zip a.rowsEntries with hL
  set res := rowsLoopG (fun cr ar => spaddRowStep beta alpha cr.1 cr.2 ar) L with hres
  have hreseq : rowsLoopG (fun cr ar => spaddRowStep beta alpha cr.1 cr.2 ar) L =
      (res.1, some e) := by
    rw [← hres]
    exact Prod.ext rfl herr
  obtain ⟨i0, hi0, hbefore, herr0, hat0, hafter0⟩ := rowsLoopG_err _ _ _ _ hreseq
  have hlenres : res.1.length = L.length := by
    rw [hres]; exact rowsLoopG_length _ _
  refine ⟨i0, hi0, ?_, ?_, ?_, ?_⟩
  · intro m hm
    have hmL : m < L.length := by omega
    have hgetm := zipped_getD c a m (by rw [← hL]; exact hmL)
    rw [← hL] at hgetm
    obtain ⟨hb1, hb2⟩ := hbefore m hm
    rw [hgetm] at hb1 hb2
    refine ⟨hb1, ?_⟩
    rw [List.getD_append _ _ _ _ (by omega), hb2]
  · have hget := zipped_getD c a i0 (by rw [← hL]; exact hi0)
    rw [← hL] at hget
    rw [hget] at herr0
    exact herr0
  · have hget := zipped_getD c a i0 (by rw [← hL]; exact hi0)
    rw [← hL] at hget
    rw [hget] at hat0
    rw [List.getD_append _ _ _ _ (by omega), hat0]
  · intro m hm
    by_cases hmL : m < L.length
    · have hgetm := zipped_getD c a m (by rw [← hL]; exact hmL)
      rw [← hL] at hgetm
      have := hafter0 m hm
      rw [hgetm] at this
      rw [List.getD_append _ _ _ _ (by omega), this]
    · rw [List.getD_append_right _ _ _ _ (by omega), hlenres, getD_drop_add]
      congr 1
      omega

/-- Partial-failure characterization of the non-transposed case of
`spmm_csr`: same shape as for `spadd_csr`. -/
theorem spmm_csr_err_partial {T : Type} [Add T] [Mul T] (c a b : CsrMatrix T)
    (beta alpha : T) (e : OperationError)
    (herr : (spmm_csr c beta alpha false a false b).2 = some e) :
    ∃ i0, i0 < ((c.rowCols.zip c.rowVals).zip a.rowsEntries).length ∧
      (∀ m < i0,
        (spmmRowStep beta alpha b (c.rowCols.getD m []) (c.rowVals.getD m [])
          (a.rowEntries m)).2 = none ∧
        (spmm_csr c beta alpha false a false b).1.rowVals.getD m [] =
          (spmmRowStep beta alpha b (c.rowCols.getD m []) (c.rowVals.getD m [])
            (a.rowEntries m)).1) ∧
      (spmmRowStep beta alpha b (c.rowCols.getD i0 []) (c.rowVals.getD i0 [])
        (a.rowEntries i0)).2 = some e ∧
      (spmm_csr c beta alpha false a false b).1.rowVals.getD i0 [] =
        (spmmRowStep beta alpha b (c.rowCols.getD i0 []) (c.rowVals.getD i0 [])
          (a.rowEntries i0)).1 ∧
      ∀ m, i0 < m → (spmm_csr c beta alpha false a false b).1.rowVals.getD m [] =
        c.rowVals.getD m [] := by
  have hassemble : spmm_csr c beta alpha false a false b =
      ({ c with rowVals :=
          (rowsLoopG (fun cr ar => spmmRowStep beta alpha b cr.1 cr.2 ar)
            ((c.rowCols.zip c.rowVals).zip a.rowsEntries)).1 ++
          c.rowVals.drop ((c.rowCols.zip c.rowVals).zip a.rowsEntries).length },
        (rowsLoopG (fun cr ar => spmmRowStep beta alpha b cr.1 cr.2 ar)
          ((c.rowCols.zip c.rowVals).zip a.rowsEntries)).2) := by
    unfold spmm_csr spmm_csr_base
    simp only [Bool.not_false, Bool.and_self, if_true, spmmRowsLoop_eq_G]
  rw [hassemble] at herr ⊢
  simp only at herr ⊢
  set L := (c.rowCols.zip c.rowVals).zip a.rowsEntries with hL
  set res := rowsLoopG (fun cr ar => spmmRowStep beta alpha b cr.1 cr.2 ar) L with hres
  have hreseq : rowsLoopG (fun cr ar => spmmRowStep beta alpha b cr.1 cr.2 ar) L =
      (res.1, some e) := by
    rw [← hres]
    exact Prod.ext rfl herr
  obtain ⟨i0, hi0, hbefore, herr0, hat0, hafter0⟩ := rowsLoopG_err _ _ _ _ hreseq
  have hlenres : res.1.length = L.length := by
    rw [hres]; exact rowsLoopG_length _ _
  refine ⟨i0, hi0, ?_, ?_, ?_, ?_⟩
  · intro m hm
    have hmL : m < L.length := by omega
    have hgetm := zipped_getD c a m (by rw [← hL]; exact hmL)
    rw [← hL] at hgetm
    obtain ⟨hb1, hb2⟩ := hbefore m hm
    rw [hgetm] at hb1 hb2
    refine ⟨hb1, ?_⟩
    rw [List.getD_append _ _ _ _ (by omega), hb2]
  · have hget := zipped_getD c a i0 (by rw [← hL]; exact hi0)
    rw [← hL] at hget
    rw [hget] at herr0
    exact herr0
  · have hget := zipped_getD c a i0 (by rw [← hL]; exact hi0)
    rw [← hL] at hget
    rw [hget] at hat0
    rw [List.getD_append _ _ _ _ (by omega), hat0]
  · intro m hm
    by_cases hmL : m < L.length
    · have hgetm := zipped_getD c a m (by rw [← hL]; exact hmL)
      rw [← hL] at hgetm
      have := hafter0 m hm
      rw [hgetm] at this
      rw [List.getD_append _ _ _ _ (by omega), this]
    · rw [List.getD_append_right _ _ _ _ (by omega), hlenres, getD_drop_add]
      congr 1
      omega

theorem modifyAt_out_of_range {α : Type} (l : List α) (i : Nat) (f : α → α)
    (h : l.length ≤ i) : modifyAt l i f = l := by
  induction l generalizing i with
  | nil => rfl
  | cons a t ih =>
    cases i with
    | zero => simp at h
    | succ n => simp [modifyAt, ih n (by simpa using h)]

theorem dmat_set_nrows {T : Type} (d : DMat T) (i j : Nat) (v : T) :
    (d.set i j v).nrows = d.nrows := rfl

theorem dmat_set_rows_length {T : Type} (d : DMat T) (i j : Nat) (v : T) :
    (d.set i j v).rows.length = d.rows.length := modifyAt_length _ _ _

theorem dmat_set_row_length {T : Type} (d : DMat T) (i j : Nat) (v : T) (m : Nat) :
    ((d.set i j v).rows.getD m []).length = (d.rows.getD m []).length := by
  unfold DMat.set
  by_cases hm : m = i
  · subst hm
    by_cases hi : m < d.rows.length
    · rw [getD_modifyAt_self _ _ _ _ hi, modifyAt_length]
    · rw [List.getD_eq_default _ _ (by rw [modifyAt_length]; omega),
        List.getD_eq_default _ _ (by omega)]
  · rw [getD_modifyAt_ne _ _ _ _ _ (fun hh => hm hh.symm)]

theorem dmat_get_set_self {T : Type} [Zero T] (d : DMat T) (i j : Nat) (v : T)
    (hi : i < d.rows.length) (hj : j < (d.rows.getD i []).length) :
    (d.set i j v).get i j = v := by
  unfold DMat.set DMat.get
  simp only
  rw [getD_modifyAt_self _ _ _ _ hi, getD_modifyAt_self _ _ _ _ hj]

theorem dmat_get_set_ne {T : Type} [Zero T] (d : DMat T) (i j i' j' : Nat) (v : T)
    (h : i' ≠ i ∨ j' ≠ j) : (d.set i j v).get i' j' = d.get i' j' := by
  unfold DMat.set DMat.get
  simp only
  rcases h with h | h
  · rw [getD_modifyAt_ne _ _ _ _ _ (fun hh => h hh.symm)]
  · by_cases hii : i' = i
    · subst hii
      by_cases hi : i' < d.rows.length
      · rw [getD_modifyAt_self _ _ _ _ hi,
          getD_modifyAt_ne _ _ _ _ _ (fun hh => h hh.symm)]
      · rw [modifyAt_out_of_range _ _ _ (by omega)]
    · rw [getD_modifyAt_ne _ _ _ _ _ (fun hh => hii hh.symm)]

theorem zipWith_getD {A B C0 : Type} (g : A → B → C0) (xs : List A) (ys : List B)
    (p : Nat) (da : A) (db : B) (dc : C0) (hp : p < xs.length) (hp2 : p < ys.length) :
    (List.zipWith g xs ys).getD p dc = g (xs.getD p da) (ys.getD p db) := by
  induction xs generalizing ys p with
  | nil => simp at hp
  | cons x xt ih =>
    cases ys with
    | nil => simp at hp2
    | cons y yt =>
      cases p with
      | zero => rfl
      | succ n => simpa using ih yt n (by simpa using hp) (by simpa using hp2)

theorem dmat_modifyRow_nrows {T : Type} (d : DMat T) (r : Nat) (f : List T → List T) :
    (d.modifyRow r f).nrows = d.nrows := rfl

theorem dmat_modifyRow_rows_length {T : Type} (d : DMat T) (r : Nat)
    (f : List T → List T) : (d.modifyRow r f).rows.length = d.rows.length :=
  modifyAt_length _ _ _

theorem dmat_get_modifyRow_ne {T : Type} [Zero T] (d : DMat T) (r : Nat)
    (f : List T → List T) (i' j' : Nat) (h : i' ≠ r) :
    (d.modifyRow r f).get i' j' = d.get i' j' := by
  unfold DMat.modifyRow DMat.get
  simp only
  rw [getD_modifyAt_ne _ _ _ _ _ (fun hh => h hh.symm)]

theorem dense_inner_shape {T : Type} [Zero T] [Add T] [Mul T] (beta alpha : T)
    (g : Nat → T) (j : Nat) (is : List Nat) (cm : DMat T) :
    (is.foldl (fun cm i => cm.set i j (beta * cm.get i j + alpha * g i)) cm).nrows =
      cm.nrows ∧
    (is.foldl (fun cm i => cm.set i j (beta * cm.get i j + alpha * g i)) cm).ncols =
      cm.ncols ∧
    (is.foldl (fun cm i => cm.set i j (beta * cm.get i j + alpha * g i)) cm).rows.length =
      cm.rows.length ∧
    ∀ m, ((is.foldl (fun cm i => cm.set i j (beta * cm.get i j + alpha * g i))
      cm).rows.getD m []).length = (cm.rows.getD m []).length := by
  induction is generalizing cm with
  | nil => exact ⟨rfl, rfl, rfl, fun m => rfl⟩
  | cons i0 is' ih =>
    rw [List.foldl_cons]
    obtain ⟨h1, h2, h3, h4⟩ := ih (cm.set i0 j (beta * cm.get i0 j + alpha * g i0))
    refine ⟨h1.trans rfl, h2.trans rfl, h3.trans (dmat_set_rows_length _ _ _ _), fun m =>
      (h4 m).trans (dmat_set_row_length _ _ _ _ _)⟩

theorem dense_inner_get {T : Type} [Zero T] [Add T] [Mul T] (beta alpha : T)
    (g : Nat → T) (j : Nat) (is : List Nat) (cm : DMat T)
    (hnodup : is.Pairwise (· ≠ ·))
    (hin : ∀ i ∈ is, i < cm.rows.length ∧ j < (cm.rows.getD i []).length)
    (i' j' : Nat) :
    (is.foldl (fun cm i => cm.set i j (beta * cm.get i j + alpha * g i)) cm).get i' j' =
      (if i' ∈ is ∧ j' = j then beta * cm.get i' j' + alpha * g i'
       else cm.get i' j') := by
  induction is generalizing cm with
  | nil => simp
  | cons i0 is' ih =>
    have hpc := List.pairwise_cons.1 hnodup
    have hi0 := hin i0 (by simp)
    rw [List.foldl_cons]
    rw [ih (cm.set i0 j (beta * cm.get i0 j + alpha * g i0)) hpc.2 (by
      intro i hi
      exact ⟨by rw [dmat_set_rows_length]; exact (hin i (by simp [hi])).1,
        by rw [dmat_set_row_length]; exact (hin i (by simp [hi])).2⟩)]
    by_cases hcase : i' ∈ is' ∧ j' = j
    · rw [if_pos hcase, if_pos ⟨by simp [hcase.1], hcase.2⟩]
      have hne : i' ≠ i0 := fun hh => (hpc.1 i' hcase.1) hh.symm
      rw [dmat_get_set_ne _ _ _ _ _ _ (Or.inl hne)]
    · rw [if_neg hcase]
      by_cases hc2 : i' = i0 ∧ j' = j
      · obtain ⟨rfl, rfl⟩ := hc2
        rw [if_pos ⟨by simp, rfl⟩]
        rw [dmat_get_set_self _ _ _ _ hi0.1 hi0.2]
      · have hne : i' ≠ i0 ∨ j' ≠ j := by tauto
        rw [dmat_get_set_ne _ _ _ _ _ _ hne]
        rw [if_neg (by
          intro hh
          rcases List.mem_cons.1 hh.1 with h1 | h1
          · exact hc2 ⟨h1, hh.2⟩
          · exact hcase ⟨h1, hh.2⟩)]

theorem dense_outer_shape {T : Type} [Zero T] [Add T] [Mul T] (beta alpha : T)
    (an : Nat) (dotf : Nat → Nat → T) (js : List Nat) (cm : DMat T) :
    (js.foldl (fun cm j => (List.range (min cm.nrows an)).foldl
        (fun cm i => cm.set i j (beta * cm.get i j + alpha * dotf i j)) cm) cm).nrows =
      cm.nrows ∧
    (js.foldl (fun cm j => (List.range (min cm.nrows an)).foldl
        (fun cm i => cm.set i j (beta * cm.get i j + alpha * dotf i j)) cm) cm).ncols =
      cm.ncols ∧
    (js.foldl (fun cm j => (List.range (min cm.nrows an)).foldl
        (fun cm i => cm.set i j (beta * cm.get i j + alpha * dotf i j)) cm)
        cm).rows.length = cm.rows.length ∧
    ∀ m, ((js.foldl (fun cm j => (List.range (min cm.nrows an)).foldl
        (fun cm i => cm.set i j (beta * cm.get i j + alpha * dotf i j)) cm)
        cm).rows.getD m []).length = (cm.rows.getD m []).length := by
  induction js generalizing cm with
  | nil => exact ⟨rfl, rfl, rfl, fun m => rfl⟩
  | cons j0 js' ih =>
    rw [List.foldl_cons]
    obtain ⟨h1, h2, h3, h4⟩ := ih ((List.range (min cm.nrows an)).foldl
      (fun cm i => cm.set i j0 (beta * cm.get i j0 + alpha * dotf i j0)) cm)
    obtain ⟨g1, g2, g3, g4⟩ := dense_inner_shape beta alpha (fun i => dotf i j0) j0
      (List.range (min cm.nrows an)) cm
    exact ⟨h1.trans g1, h2.trans g2, h3.trans g3, fun m => (h4 m).trans (g4 m)⟩

theorem dense_outer_get {T : Type} [Zero T] [Add T] [Mul T] (beta alpha : T)
    (an : Nat) (dotf : Nat → Nat → T) (js : List Nat) (cm : DMat T)
    (hnodup : js.Pairwise (· ≠ ·))
    (hrows : min cm.nrows an ≤ cm.rows.length)
    (hwidth : ∀ i, i < min cm.nrows an → ∀ j ∈ js, j < (cm.rows.getD i []).length)
    (i' j' : Nat) :
    (js.foldl (fun cm j => (List.range (min cm.nrows an)).foldl
        (fun cm i => cm.set i j (beta * cm.get i j + alpha * dotf i j)) cm) cm).get i' j' =
      (if j' ∈ js ∧ i' < min cm.nrows an
       then beta * cm.get i' j' + alpha * dotf i' j'
       else cm.get i' j') := by
  induction js generalizing cm with
  | nil => simp
  | cons j0 js' ih =>
    have hpc := List.pairwise_cons.1 hnodup
    rw [List.foldl_cons]
    obtain ⟨g1, g2, g3, g4⟩ := dense_inner_shape beta alpha (fun i => dotf i j0) j0
      (List.range (min cm.nrows an)) cm
    have hinner := dense_inner_get beta alpha (fun i => dotf i j0) j0
      (List.range (min cm.nrows an)) cm
      (List.Nodup.pairwise_of_forall_ne (List.nodup_range _) (fun a _ b _ h => h))
      (by
        intro i hi
        have hi' : i < min cm.nrows an := List.mem_range.1 hi
        exact ⟨by omega, hwidth i hi' j0 (by simp)⟩)
    rw [ih ((List.range (min cm.nrows an)).foldl
        (fun cm i => cm.set i j0 (beta * cm.get i j0 + alpha * dotf i j0)) cm)
      hpc.2 (by rw [g1, g3]; exact hrows) (by
        intro i hi j hj
        rw [g1] at hi
        rw [g4 i]
        exact hwidth i hi j (by simp [hj]))]
    rw [g1]
    by_cases hcase : j' ∈ js' ∧ i' < min cm.nrows an
    · rw [if_pos hcase, if_pos ⟨by simp [hcase.1], hcase.2⟩]
      have hne : j' ≠ j0 := fun hh => (hpc.1 j' hcase.1) hh.symm
      rw [hinner i' j', if_neg (by intro hh; exact hne hh.2)]
    · rw [if_neg hcase, hinner i' j']
      by_cases hc2 : j' = j0 ∧ i' < min cm.nrows an
      · obtain ⟨rfl, hi'⟩ := hc2
        rw [if_pos ⟨List.mem_range.2 hi', rfl⟩, if_pos ⟨by simp, hi'⟩]
      · rw [if_neg (by
          intro hh
          exact hc2 ⟨hh.2, List.mem_range.1 hh.1⟩)]
        rw [if_neg (by
          intro hh
          rcases List.mem_cons.1 hh.1 with h1 | h1
          · exact hc2 ⟨h1, hh.2⟩
          · exact hcase ⟨h1, hh.2⟩)]

theorem dmat_scatter_step_get {T : Type} [Zero T] [Add T] [Mul T] (cm : DMat T)
    (r : Nat) (gamma : T) (bvec : List T) (i' j' : Nat)
    (hlen : bvec.length = (cm.rows.getD r []).length) :
    (cm.modifyRow r (fun crow =>
      crow.zipWith (fun cij bkj => cij + gamma * bkj) bvec)).get i' j' =
      (if i' = r ∧ i' < cm.rows.length ∧ j' < (cm.rows.getD r []).length
       then cm.get i' j' + gamma * bvec.getD j' 0
       else cm.get i' j') := by
  by_cases hir : i' = r
  · subst hir
    by_cases hrl : i' < cm.rows.length
    · unfold DMat.modifyRow DMat.get
      simp only
      rw [getD_modifyAt_self _ _ _ _ hrl]
      by_cases hj : j' < (cm.rows.getD i' []).length
      · rw [if_pos (show True ∧ i' < cm.rows.length ∧ j' < (cm.rows.getD i' []).length
          from ⟨trivial, hrl, hj⟩)]
        rw [zipWith_getD _ _ _ _ 0 0 0 hj (by omega)]
      · rw [if_neg (by intro hh; exact hj hh.2.2)]
        rw [List.getD_eq_default _ _ (by rw [List.length_zipWith]; omega),
          List.getD_eq_default _ _ (by omega)]
    · unfold DMat.modifyRow DMat.get
      simp only
      rw [modifyAt_out_of_range _ _ _ (by omega)]
      rw [if_neg (by intro hh; exact hrl hh.2.1)]
  · rw [dmat_get_modifyRow_ne _ _ _ _ _ hir]
    rw [if_neg (by intro hh; exact hir hh.1)]

theorem dmat_scatter_step_shape {T : Type} [Add T] [Mul T] (cm : DMat T) (r : Nat)
    (gamma : T) (bvec : List T)
    (hlen : bvec.length = (cm.rows.getD r []).length) :
    (cm.modifyRow r (fun crow =>
      crow.zipWith (fun cij bkj => cij + gamma * bkj) bvec)).nrows = cm.nrows ∧
    (cm.modifyRow r (fun crow =>
      crow.zipWith (fun cij bkj => cij + gamma * bkj) bvec)).ncols = cm.ncols ∧
    (cm.modifyRow r (fun crow =>
      crow.zipWith (fun cij bkj => cij + gamma * bkj) bvec)).rows.length =
      cm.rows.length ∧
    ∀ m, ((cm.modifyRow r (fun crow =>
      crow.zipWith (fun cij bkj => cij + gamma * bkj) bvec)).rows.getD m []).length =
      (cm.rows.getD m []).length := by
  refine ⟨rfl, rfl, dmat_modifyRow_rows_length _ _ _, ?_⟩
  intro m
  unfold DMat.modifyRow
  simp only
  by_cases hm : m = r
  · subst hm
    by_cases hr : m < cm.rows.length
    · rw [getD_modifyAt_self _ _ _ _ hr, List.length_zipWith]
      omega
    · rw [modifyAt_out_of_range _ _ _ (by omega)]
  · rw [getD_modifyAt_ne _ _ _ _ _ (fun hh => hm hh.symm)]

theorem scatter_entries_spec {T : Type} [CommRing T] (alpha : T) (bvec : List T)
    (entries : List (Nat × T)) (cm : DMat T) (W : Nat)
    (htargets : ∀ p ∈ entries, p.1 < cm.rows.length)
    (hW : ∀ m, m < cm.rows.length → (cm.rows.getD m []).length = W)
    (hb : bvec.length = W) :
    (entries.foldl (fun cm p => cm.modifyRow p.1 (fun crow =>
      crow.zipWith (fun cij bkj => cij + alpha * p.2 * bkj) bvec)) cm).nrows = cm.nrows ∧
    (entries.foldl (fun cm p => cm.modifyRow p.1 (fun crow =>
      crow.zipWith (fun cij bkj => cij + alpha * p.2 * bkj) bvec)) cm).ncols = cm.ncols ∧
    (entries.foldl (fun cm p => cm.modifyRow p.1 (fun crow =>
      crow.zipWith (fun cij bkj => cij + alpha * p.2 * bkj) bvec)) cm).rows.length =
      cm.rows.length ∧
    (∀ m, m < cm.rows.length →
      ((entries.foldl (fun cm p => cm.modifyRow p.1 (fun crow =>
        crow.zipWith (fun cij bkj => cij + alpha * p.2 * bkj) bvec)) cm).rows.getD
        m []).length = W) ∧
    ∀ i' j', j' < W →
      (entries.foldl (fun cm p => cm.modifyRow p.1 (fun crow =>
        crow.zipWith (fun cij bkj => cij + alpha * p.2 * bkj) bvec)) cm).get i' j' =
        cm.get i' j' + (entries.map (fun p =>
          if p.1 = i' then alpha * p.2 * bvec.getD j' 0 else 0)).sum := by
  induction entries generalizing cm with
  | nil => exact ⟨rfl, rfl, rfl, fun m hm => hW m hm, fun i' j' _ => by simp⟩
  | cons p rest ih =>
    have hp := htargets p (by simp)
    have hlen1 : bvec.length = (cm.rows.getD p.1 []).length := by
      rw [hW p.1 hp, hb]
    obtain ⟨s1, s2, s3, s4⟩ := dmat_scatter_step_shape cm p.1 (alpha * p.2) bvec hlen1
    obtain ⟨h1, h2, h3, h4, h5⟩ := ih
      (cm.modifyRow p.1 (fun crow =>
        crow.zipWith (fun cij bkj => cij + alpha * p.2 * bkj) bvec))
      (by intro q hq; rw [s3]; exact htargets q (by simp [hq]))
      (by intro m hm; rw [s3] at hm; rw [s4 m]; exact hW m hm)
    rw [List.foldl_cons]
    refine ⟨h1.trans s1, h2.trans s2, h3.trans s3, ?_, ?_⟩
    · intro m hm
      exact h4 m (by rw [s3]; exact hm)
    · intro i' j' hj
      rw [h5 i' j' hj]
      rw [dmat_scatter_step_get cm p.1 (alpha * p.2) bvec i' j' hlen1]
      by_cases hi : p.1 = i'
      · subst hi
        rw [if_pos ⟨rfl, hp, by rw [hW p.1 hp]; omega⟩]
        simp only [List.map_cons, List.sum_cons, eq_self_iff_true, if_true]
        ring
      · rw [if_neg (by intro hh; exact hi hh.1.symm)]
        simp only [List.map_cons, List.sum_cons, if_neg hi]
        rw [zero_add]

theorem scatter_ks_spec {T : Type} [CommRing T] (alpha : T) (a : CsrMatrix T)
    (tb : Bool) (b : DMat T) (ks : List Nat) (cm : DMat T) (W : Nat)
    (htargets : ∀ k ∈ ks, ∀ p ∈ a.rowEntries k, p.1 < cm.rows.length)
    (hW : ∀ m, m < cm.rows.length → (cm.rows.getD m []).length = W)
    (hb : ∀ k ∈ ks, (if tb then b.denseCol k else b.denseRow k).length = W) :
    (ks.foldl (fun cm k => (a.rowEntries k).foldl (fun cm p =>
      cm.modifyRow p.1 (fun crow => crow.zipWith (fun cij bkj => cij + alpha * p.2 * bkj)
        (if tb then b.denseCol k else b.denseRow k))) cm) cm).nrows = cm.nrows ∧
    (ks.foldl (fun cm k => (a.rowEntries k).foldl (fun cm p =>
      cm.modifyRow p.1 (fun crow => crow.zipWith (fun cij bkj => cij + alpha * p.2 * bkj)
        (if tb then b.denseCol k else b.denseRow k))) cm) cm).ncols = cm.ncols ∧
    (ks.foldl (fun cm k => (a.rowEntries k).foldl (fun cm p =>
      cm.modifyRow p.1 (fun crow => crow.zipWith (fun cij bkj => cij + alpha * p.2 * bkj)
        (if tb then b.denseCol k else b.denseRow k))) cm) cm).rows.length =
      cm.rows.length ∧
    (∀ m, m < cm.rows.length →
      ((ks.foldl (fun cm k => (a.rowEntries k).foldl (fun cm p =>
        cm.modifyRow p.1 (fun crow => crow.zipWith (fun cij bkj => cij + alpha * p.2 * bkj)
          (if tb then b.denseCol k else b.denseRow k))) cm) cm).rows.getD m []).length =
        W) ∧
    ∀ i' j', j' < W →
      (ks.foldl (fun cm k => (a.rowEntries k).foldl (fun cm p =>
        cm.modifyRow p.1 (fun crow => crow.zipWith (fun cij bkj => cij + alpha * p.2 * bkj)
          (if tb then b.denseCol k else b.denseRow k))) cm) cm).get i' j' =
        cm.get i' j' + (ks.map (fun k => ((a.rowEntries k).map (fun p =>
          if p.1 = i' then alpha * p.2 *
            (if tb then b.denseCol k else b.denseRow k).getD j' 0
          else 0)).sum)).sum := by
  induction ks generalizing cm with
  | nil => exact ⟨rfl, rfl, rfl, fun m hm => hW m hm, fun i' j' _ => by simp⟩
  | cons k0 ks' ih =>
    obtain ⟨s1, s2, s3, s4, s5⟩ := scatter_entries_spec alpha
      (if tb then b.denseCol k0 else b.denseRow k0) (a.rowEntries k0) cm W
      (htargets k0 (by simp)) hW (hb k0 (by simp))
    obtain ⟨h1, h2, h3, h4, h5⟩ := ih
      ((a.rowEntries k0).foldl (fun cm p =>
        cm.modifyRow p.1 (fun crow => crow.zipWith (fun cij bkj => cij + alpha * p.2 * bkj)
          (if tb then b.denseCol k0 else b.denseRow k0))) cm)
      (by intro k hk p hp; rw [s3]; exact htargets k (by simp [hk]) p hp)
      (by intro m hm; rw [s3] at hm; exact s4 m hm)
      (by intro k hk; exact hb k (by simp [hk]))
    rw [List.foldl_cons]
    refine ⟨h1.trans s1, h2.trans s2, h3.trans s3, ?_, ?_⟩
    · intro m hm
      exact h4 m (by rw [s3]; exact hm)
    · intro i' j' hj
      rw [h5 i' j' hj, s5 i' j' hj]
      simp only [List.map_cons, List.sum_cons]
      ring

theorem getD_mem_of_lt {α : Type} (l : List α) (d : α) (m : Nat) (h : m < l.length) :
    l.getD m d ∈ l := by
  rw [getD_eq_getElem_of_lt l d m h]
  exact List.getElem_mem h

theorem dmat_scale_get {T : Type} [CommRing T] (c : DMat T) (beta : T) (i' j' : Nat) :
    DMat.get { c with rows := c.rows.map (fun r => r.map (fun v => v * beta)) } i' j' =
      c.get i' j' * beta := by
  unfold DMat.get
  simp only
  by_cases hi : i' < c.rows.length
  · rw [getD_map_lt _ _ [] [] i' hi]
    by_cases hj : j' < (c.rows.getD i' []).length
    · rw [getD_map_lt _ _ 0 0 j' hj]
    · rw [List.getD_eq_default ((c.rows.getD i' []).map (fun v => v * beta)) 0
        (by rw [List.length_map]; omega),
        List.getD_eq_default (c.rows.getD i' []) 0 (by omega), zero_mul]
  · rw [List.getD_eq_default (c.rows.map (fun r => r.map (fun v => v * beta))) []
      (by rw [List.length_map]; omega),
      List.getD_eq_default c.rows [] (by omega)]
    simp

theorem dot_eq_sum {T : Type} [CommRing T] (a : CsrMatrix T) (ha : CsrWF a)
    (f : Nat → T) (i : Nat) :
    (a.rowEntries i).foldl (fun acc p => acc + p.2 * f p.1) 0 =
      ∑ k ∈ Finset.range a.ncols, a.getEntry i k * f k := by
  rw [foldl_add_eq (fun p : Nat × T => p.2 * f p.1) 0 (a.rowEntries i), zero_add]
  rw [sum_entries_lookup (a.rowEntries i) (fun k v => v * f k) a.ncols
    (by rw [rowEntries_keys a i (ha.rowLen_any i)]; exact ha.sorted_any i)
    (fun p hp => ha.colLt_any i p.1 (List.of_mem_zip hp).1)]
  apply Finset.sum_congr rfl
  intro k _
  unfold CsrMatrix.getEntry
  cases hlk : lookupCol k (a.rowEntries i) with
  | some v => simp
  | none => simp

theorem dmat_eq_ofFun {T : Type} [Zero T] (d : DMat T) (m n : Nat) (f : Nat → Nat → T)
    (hm : d.nrows = m) (hn : d.ncols = n) (hrows : d.rows.length = m)
    (hrl : ∀ i, i < m → (d.rows.getD i []).length = n)
    (hget : ∀ i, i < m → ∀ j, j < n → d.get i j = f i j) :
    d = DMat.ofFun m n f := by
  obtain ⟨dn, dc, dr⟩ := d
  simp only at hm hn hrows hrl hget
  subst hm hn
  unfold DMat.ofFun
  have hrowseq : dr = (List.range dn).map (fun i => (List.range dc).map (fun j => f i j)) := by
    apply List.ext_getElem
    · rw [hrows]; simp
    · intro i h1 h2
      rw [List.getElem_map, List.getElem_range]
      have hi : i < dn := by rw [← hrows]; exact h1
      apply List.ext_getElem
      · rw [← getD_eq_getElem_of_lt dr [] i h1, hrl i hi]; simp
      · intro j hj1 hj2
        have hj : j < dc := by
          rw [← getD_eq_getElem_of_lt dr [] i h1] at hj1
          rw [← hrl i hi]; exact hj1
        have := hget i hi j hj
        unfold DMat.get at this
        simp only at this
        rw [getD_eq_getElem_of_lt dr [] i h1] at this
        rw [getD_eq_getElem_of_lt _ 0 j hj1] at this
        rw [this, List.getElem_map, List.getElem_range]
  rw [hrowseq]

theorem spmm_csr_dense_nontrans_get {T : Type} [CommRing T] (c : DMat T)
    (beta alpha : T) (a : CsrMatrix T) (tb : Bool) (b : DMat T) (hc : DWF c)
    (i' j' : Nat) :
    (spmm_csr_dense c beta alpha false a tb b).get i' j' =
      (if j' < c.ncols ∧ i' < min c.nrows a.nrows
       then beta * c.get i' j' + alpha * ((a.rowEntries i').foldl
         (fun acc p => acc + p.2 * (if tb then b.get j' p.1 else b.get p.1 j')) 0)
       else c.get i' j') := by
  have hunf : spmm_csr_dense c beta alpha false a tb b =
      (List.range c.ncols).foldl (fun cm j =>
        (List.range (min cm.nrows a.nrows)).foldl (fun cm i =>
          cm.set i j (beta * cm.get i j + alpha * ((a.rowEntries i).foldl
            (fun acc p => acc + p.2 * (if tb then b.get j p.1 else b.get p.1 j)) 0)) ) cm)
        c := rfl
  have hmain := dense_outer_get beta alpha a.nrows
    (fun i j => (a.rowEntries i).foldl
      (fun acc p => acc + p.2 * (if tb then b.get j p.1 else b.get p.1 j)) 0)
    (List.range c.ncols) c
    (List.Nodup.pairwise_of_forall_ne (List.nodup_range _) (fun a _ b _ h => h))
    (by rw [hc.rowsLen]; omega)
    (by
      intro i hi j hj
      rw [hc.rowLen _ (getD_mem_of_lt _ _ _ (by rw [hc.rowsLen]; omega))]
      exact List.mem_range.1 hj)
    i' j'
  rw [hunf, hmain]
  by_cases hcond : j' < c.ncols ∧ i' < min c.nrows a.nrows
  · rw [if_pos ⟨List.mem_range.2 hcond.1, hcond.2⟩, if_pos hcond]
  · rw [if_neg (by
      intro hh
      exact hcond ⟨List.mem_range.1 hh.1, hh.2⟩), if_neg hcond]

theorem spmm_csr_dense_trans_get {T : Type} [CommRing T] (c : DMat T)
    (beta alpha : T) (a : CsrMatrix T) (tb : Bool) (b : DMat T)
    (hc : DWF c) (ha : CsrWF a) (hbw : DWF b)
    (hca : a.ncols = c.nrows)
    (hb1 : tb = true → b.nrows = c.ncols)
    (hb2 : tb = false → b.ncols = c.ncols ∧ a.nrows = b.nrows)
    (i' j' : Nat) (hj : j' < c.ncols) :
    (spmm_csr_dense c beta alpha true a tb b).get i' j' =
      c.get i' j' * beta + ∑ k ∈ Finset.range a.nrows,
        alpha * a.getEntry k i' * (if tb then b.get j' k else b.get k j') := by
  have hunf : spmm_csr_dense c beta alpha true a tb b =
      (List.range a.nrows).foldl (fun cm k => (a.rowEntries k).foldl (fun cm p =>
        cm.modifyRow p.1 (fun crow => crow.zipWith (fun cij bkj => cij + alpha * p.2 * bkj)
          (if tb then b.denseCol k else b.denseRow k))) cm)
        { c with rows := c.rows.map (fun r => r.map (fun v => v * beta)) } := rfl
  have hscale_len : ({ c with rows := c.rows.map (fun r => r.map (fun v => v * beta)) }
      : DMat T).rows.length = c.rows.length := by simp
  obtain ⟨s1, s2, s3, s4, s5⟩ := scatter_ks_spec alpha a tb b (List.range a.nrows)
    { c with rows := c.rows.map (fun r => r.map (fun v => v * beta)) } c.ncols
    (by
      intro k hk p hp
      rw [hscale_len, hc.rowsLen, ← hca]
      exact ha.colLt_any k p.1 (List.of_mem_zip hp).1)
    (by
      intro m hm
      rw [hscale_len] at hm
      simp only
      rw [getD_map_lt _ _ [] [] m hm, List.length_map]
      exact hc.rowLen _ (getD_mem_of_lt _ _ _ hm))
    (by
      intro k hk
      cases tb with
      | true =>
        show (b.denseCol k).length = c.ncols
        unfold DMat.denseCol
        rw [List.length_map, hbw.rowsLen]
        exact hb1 rfl
      | false =>
        show (b.denseRow k).length = c.ncols
        unfold DMat.denseRow
        obtain ⟨hbc, hanb⟩ := hb2 rfl
        have hk' : k < b.rows.length := by
          rw [hbw.rowsLen, ← hanb]
          exact List.mem_range.1 hk
        rw [hbw.rowLen _ (getD_mem_of_lt _ _ _ hk')]
        exact hbc)
  rw [hunf, s5 i' j' hj, dmat_scale_get]
  congr 1
  rw [range_map_sum]
  apply Finset.sum_congr rfl
  intro k hk
  have hbval : (if tb then b.denseCol k else b.denseRow k).getD j' 0 =
      (if tb then b.get j' k else b.get k j') := by
    cases tb with
    | true =>
      show (b.denseCol k).getD j' 0 = b.get j' k
      unfold DMat.denseCol DMat.get
      have hj' : j' < b.rows.length := by
        rw [hbw.rowsLen, hb1 rfl]; exact hj
      rw [getD_map_lt _ _ 0 [] j' hj']
    | false =>
      show (b.denseRow k).getD j' 0 = b.get k j'
      unfold DMat.denseRow DMat.get
      rfl
  rw [hbval]
  rw [sum_match_key (a.rowEntries k) i'
    (fun v => alpha * v * (if tb then b.get j' k else b.get k j'))
    (by rw [rowEntries_keys a k (ha.rowLen_any k)]; exact ha.sorted_any k)]
  unfold CsrMatrix.getEntry
  cases hlk : lookupCol i' (a.rowEntries k) with
  | some v => simp
  | none => simp

/-- Full functional specification of `spmm_csr_dense`: for every
combination of transpose flags, under well-formedness and dimension
compatibility, the kernel computes exactly the dense matrix
`beta * C + alpha * op(A) * op(B)`. -/
theorem spmm_csr_dense_ofFun {T : Type} [CommRing T] (c : DMat T) (beta alpha : T)
    (ta : Bool) (a : CsrMatrix T) (tb : Bool) (b : DMat T)
    (hc : DWF c) (ha : CsrWF a) (hb : DWF b)
    (h1 : (if ta then a.ncols else a.nrows) = c.nrows)
    (h2 : (if tb then b.nrows else b.ncols) = c.ncols)
    (h3 : (if ta then a.nrows else a.ncols) = (if tb then b.ncols else b.nrows)) :
    spmm_csr_dense c beta alpha ta a tb b =
      DMat.ofFun c.nrows c.ncols (fun i j =>
        beta * c.get i j + alpha *
          ∑ k ∈ Finset.range (if ta then a.nrows else a.ncols),
            (if ta then a.getEntry k i else a.getEntry i k) *
            (if tb then b.get j k else b.get k j)) := by
  cases ta with
  | false =>
    have h1' : a.nrows = c.nrows := h1
    show spmm_csr_dense c beta alpha false a tb b =
      DMat.ofFun c.nrows c.ncols (fun i j =>
        beta * c.get i j + alpha * ∑ k ∈ Finset.range a.ncols,
          a.getEntry i k * (if tb then b.get j k else b.get k j))
    have hunf : spmm_csr_dense c beta alpha false a tb b =
        (List.range c.ncols).foldl (fun cm j =>
          (List.range (min cm.nrows a.nrows)).foldl (fun cm i =>
            cm.set i j (beta * cm.get i j + alpha * ((a.rowEntries i).foldl
              (fun acc p => acc + p.2 * (if tb then b.get j p.1 else b.get p.1 j)) 0)) ) cm)
          c := rfl
    obtain ⟨g1, g2, g3, g4⟩ := dense_outer_shape beta alpha a.nrows
      (fun i j => (a.rowEntries i).foldl
        (fun acc p => acc + p.2 * (if tb then b.get j p.1 else b.get p.1 j)) 0)
      (List.range c.ncols) c
    apply dmat_eq_ofFun
    · rw [hunf]; exact g1
    · rw [hunf]; exact g2
    · rw [hunf, g3, hc.rowsLen]
    · intro i hi
      rw [hunf, g4 i]
      exact hc.rowLen _ (getD_mem_of_lt _ _ _ (by rw [hc.rowsLen]; omega))
    · intro i hi j hj
      rw [spmm_csr_dense_nontrans_get c beta alpha a tb b hc i j]
      rw [if_pos ⟨hj, by omega⟩]
      rw [dot_eq_sum a ha (fun k => if tb then b.get j k else b.get k j) i]
  | true =>
    have h1' : a.ncols = c.nrows := h1
    have h2' : (if tb then b.nrows else b.ncols) = c.ncols := h2
    have h3' : a.nrows = (if tb then b.ncols else b.nrows) := h3
    show spmm_csr_dense c beta alpha true a tb b =
      DMat.ofFun c.nrows c.ncols (fun i j =>
        beta * c.get i j + alpha * ∑ k ∈ Finset.range a.nrows,
          a.getEntry k i * (if tb then b.get j k else b.get k j))
    have hb1 : tb = true → b.nrows = c.ncols := by
      intro h; rw [h] at h2'; exact h2'
    have hb2 : tb = false → b.ncols = c.ncols ∧ a.nrows = b.nrows := by
      intro h; rw [h] at h2' h3'; exact ⟨h2', h3'⟩
    have hunf : spmm_csr_dense c beta alpha true a tb b =
        (List.range a.nrows).foldl (fun cm k => (a.rowEntries k).foldl (fun cm p =>
          cm.modifyRow p.1 (fun crow => crow.zipWith (fun cij bkj => cij + alpha * p.2 * bkj)
            (if tb then b.denseCol k else b.denseRow k))) cm)
          { c with rows := c.rows.map (fun r => r.map (fun v => v * beta)) } := rfl
    have hscale_len : ({ c with rows := c.rows.map (fun r => r.map (fun v => v * beta)) }
        : DMat T).rows.length = c.rows.length := by simp
    obtain ⟨s1, s2, s3, s4, s5⟩ := scatter_ks_spec alpha a tb b (List.range a.nrows)
      { c with rows := c.rows.map (fun r => r.map (fun v => v * beta)) } c.ncols
      (by
        intro k hk p hp
        rw [hscale_len, hc.rowsLen, ← h1']
        exact ha.colLt_any k p.1 (List.of_mem_zip hp).1)
      (by
        intro m hm
        rw [hscale_len] at hm
        simp only
        rw [getD_map_lt _ _ [] [] m hm, List.length_map]
        exact hc.rowLen _ (getD_mem_of_lt _ _ _ hm))
      (by
        intro k hk
        cases tb with
        | true =>
          show (b.denseCol k).length = c.ncols
          unfold DMat.denseCol
          rw [List.length_map, hb.rowsLen]
          exact hb1 rfl
        | false =>
          show (b.denseRow k).length = c.ncols
          unfold DMat.denseRow
          obtain ⟨hbc, hanb⟩ := hb2 rfl
          have hk' : k < b.rows.length := by
            rw [hb.rowsLen, ← hanb]
            exact List.mem_range.1 hk
          rw [hb.rowLen _ (getD_mem_of_lt _ _ _ hk')]
          exact hbc)
    apply dmat_eq_ofFun
    · rw [hunf]; exact s1
    · rw [hunf]; exact s2
    · rw [hunf, s3, hscale_len, hc.rowsLen]
    · intro i hi
      rw [hunf]
      exact s4 i (by rw [hscale_len, hc.rowsLen]; omega)
    · intro i hi j hj
      rw [spmm_csr_dense_trans_get c beta alpha a tb b hc ha hb h1' hb1 hb2 i j hj]
      rw [Finset.mul_sum]
      congr 1
      · rw [mul_comm]
      · apply Finset.sum_congr rfl
        intro k _
        rw [mul_assoc]

theorem zipWith2_right {A B : Type} (f : A → B → B) (hf : ∀ x y, f x y = y)
    (cV : List (List A)) (aV : List (List B)) (hlen : cV.length = aV.length)
    (hrow : ∀ m, m < cV.length → (cV.getD m []).length = (aV.getD m []).length) :
    List.zipWith (fun cr ar => List.zipWith f cr ar) cV aV = aV := by
  induction cV generalizing aV with
  | nil =>
    cases aV with
    | nil => rfl
    | cons => simp at hlen
  | cons cr cVt ih =>
    cases aV with
    | nil => simp at hlen
    | cons ar aVt =>
      simp only [List.zipWith_cons_cons]
      congr 1
      · exact zipWith_const_right f hf cr ar (by simpa using hrow 0 (by simp))
      · exact ih aVt (by simpa using hlen)
          (fun m hm => by simpa using hrow (m + 1) (by simp; omega))

/-- With `beta = 0` and `alpha = 1`, the scaled-then-accumulated row of
the general `spadd_csr` path equals `A`'s row values outright. -/
theorem row_zero_one {T : Type} [CommRing T] [DecidableEq T] (keys : List Nat)
    (cvals avals : List T) (hsort : keys.Pairwise (· < ·))
    (h1 : avals.length = keys.length) (h2 : cvals.length = keys.length) :
    applyEntries 1 (keys.zip avals) keys
      (if (0 : T) ≠ 1 then cvals.map (fun v => v * 0) else cvals) = avals := by
  by_cases h01 : (0 : T) = 1
  · rw [if_neg (fun hne => hne h01)]
    rw [applyEntries_zip_self 1 keys avals cvals hsort h1 h2]
    haveI := subsingleton_of_zero_eq_one h01
    exact zipWith_const_right _ (fun x y => Subsingleton.elim _ _) _ _ (by omega)
  · rw [if_pos h01]
    rw [applyEntries_zip_self 1 keys avals _ hsort h1 (by rw [List.length_map]; omega)]
    rw [List.zipWith_map_left]
    exact zipWith_const_right _ (fun x y => by ring) _ _ (by omega)

/-- C1 (code bug): `C` and `A` share the identical pattern object
(`pid = 7`) whose only entry is position `(0, 1)`; with `trans_a = true`,
`op(A)` has its nonzero at `(1, 0)`, which is not in `C`'s pattern, so by
the documented contract (`C <- beta*C + alpha*trans(A)`, error when a
nonzero of `op(A)` is absent from `C`) the call should fail with
`InvalidPattern`.  Instead the `Arc::ptr_eq` fast path, checked before
the transpose flag, runs the element-wise combination and returns `Ok`:
`56 = 2*3 + 10*5`, i.e. it computed `beta*C + alpha*A`, not
`beta*C + alpha*A^T`. -/
theorem spadd_csr_shared_pattern_transpose_code_bug :
    (lookupCol 1 ((⟨2, 2, 7, [[1], []], [[5], []]⟩ : CsrMatrix ℤ).rowEntries 0) = some 5) ∧
    (findCol 0 ((⟨2, 2, 7, [[1], []], [[3], []]⟩ : CsrMatrix ℤ).rowCols.getD 1 []) = none) ∧
    (spadd_csr (⟨2, 2, 7, [[1], []], [[3], []]⟩ : CsrMatrix ℤ) 2 10 true
      ⟨2, 2, 7, [[1], []], [[5], []]⟩).2 = none ∧
    (spadd_csr (⟨2, 2, 7, [[1], []], [[3], []]⟩ : CsrMatrix ℤ) 2 10 true
      ⟨2, 2, 7, [[1], []], [[5], []]⟩).1.rowVals = [[56], []] := by
  refine ⟨rfl, rfl, rfl, ?_⟩
  show List.zipWith _ [[3], []] [[5], []] = [[56], []]
  norm_num

/-- C4: whenever at least one transpose flag is set, `spmm_csr` returns
exactly the result (error and final state alike) of the non-transposed
call on explicitly transposed copies of the flagged operands. -/
theorem spmm_csr_transpose_refinement {T : Type} [Add T] [Mul T] (c : CsrMatrix T)
    (beta alpha : T) (ta tb : Bool) (a b : CsrMatrix T) (h : (ta || tb) = true) :
    spmm_csr c beta alpha ta a tb b =
      spmm_csr c beta alpha false (if ta then a.transpose else a) false
        (if tb then b.transpose else b) := by
  cases ta <;> cases tb
  · simp at h
  · rfl
  · rfl
  · rfl

theorem spmm_csr_transpose_refinement_witness :
    ((true || false) = true) ∧
    (spmm_csr (⟨2, 2, 4, [[0, 1], [0, 1]], [[9, 9], [9, 9]]⟩ : CsrMatrix ℤ) 0 1 true
      ⟨2, 2, 0, [[1], []], [[5], []]⟩ false ⟨2, 2, 3, [[0, 1], [1]], [[4, 5], [6]]⟩ =
     spmm_csr (⟨2, 2, 4, [[0, 1], [0, 1]], [[9, 9], [9, 9]]⟩ : CsrMatrix ℤ) 0 1 false
      (⟨2, 2, 0, [[1], []], [[5], []]⟩ : CsrMatrix ℤ).transpose false
      ⟨2, 2, 3, [[0, 1], [1]], [[4, 5], [6]]⟩) :=
  ⟨rfl, spmm_csr_transpose_refinement _ 0 1 true false _ _ rfl⟩

/-- C10: the `unreachable!()` arm of the transpose dispatch (both flags
false) can never execute: the surrounding `else` branch is entered only
when at least one flag is true, and then the dispatch always yields a
pair of operands. -/
theorem spmm_csr_unreachable_arm {T : Type} (ta tb : Bool) (a b : CsrMatrix T)
    (h : (!ta && !tb) = false) : spmmTransposeDispatch ta tb a b ≠ none := by
  cases ta <;> cases tb <;> simp_all [spmmTransposeDispatch]

theorem spmm_csr_unreachable_arm_witness :
    ((!true && !false) = false) ∧
    spmmTransposeDispatch true false (⟨1, 1, 0, [[]], [[]]⟩ : CsrMatrix ℤ)
      ⟨1, 1, 0, [[]], [[]]⟩ ≠ none :=
  ⟨rfl, spmm_csr_unreachable_arm true false _ _ rfl⟩

theorem ofFun_congr {T : Type} (m n : Nat) (f g : Nat → Nat → T)
    (h : ∀ i < m, ∀ j < n, f i j = g i j) : DMat.ofFun m n f = DMat.ofFun m n g := by
  unfold DMat.ofFun
  congr 1
  apply List.map_congr_left
  intro i hi
  apply List.map_congr_left
  intro j hj
  exact h i (List.mem_range.1 hi) j (List.mem_range.1 hj)

/-- C3: for every combination of the transpose flags, every compatible
well-formed dense `C`, sparse `A`, dense `B` and all scalars over a
commutative ring, `spmm_csr_dense` leaves `C` equal to
`beta * C_old + alpha * op(A) * op(B)` where `op` is the explicit
mathematical transpose of the dense equivalent of a flagged operand. -/
theorem spmm_csr_dense_affine_op {T : Type} [CommRing T] (c : DMat T)
    (beta alpha : T) (ta : Bool) (a : CsrMatrix T) (tb : Bool) (b : DMat T)
    (hc : DWF c) (ha : CsrWF a) (hb : DWF b)
    (h1 : (if ta then a.ncols else a.nrows) = c.nrows)
    (h2 : (if tb then b.nrows else b.ncols) = c.ncols)
    (h3 : (if ta then a.nrows else a.ncols) = (if tb then b.ncols else b.nrows)) :
    spmm_csr_dense c beta alpha ta a tb b =
      DMat.ofFun c.nrows c.ncols (fun i j =>
        beta * c.get i j + alpha *
          ∑ k ∈ Finset.range (if ta then a.nrows else a.ncols),
            (if ta then a.getEntry k i else a.getEntry i k) *
            (if tb then b.get j k else b.get k j)) :=
  spmm_csr_dense_ofFun c beta alpha ta a tb b hc ha hb h1 h2 h3

theorem spmm_csr_dense_affine_op_witness :
    DWF (⟨2, 2, [[7, 8], [9, 10]]⟩ : DMat ℤ) ∧
    CsrWF (⟨2, 2, 0, [[1], []], [[5], []]⟩ : CsrMatrix ℤ) ∧
    DWF (⟨2, 2, [[1, 2], [3, 4]]⟩ : DMat ℤ) ∧
    (spmm_csr_dense (⟨2, 2, [[7, 8], [9, 10]]⟩ : DMat ℤ) 2 3 true
      ⟨2, 2, 0, [[1], []], [[5], []]⟩ false ⟨2, 2, [[1, 2], [3, 4]]⟩ =
      DMat.ofFun 2 2 (fun i j =>
        2 * DMat.get (⟨2, 2, [[7, 8], [9, 10]]⟩ : DMat ℤ) i j + 3 *
          ∑ k ∈ Finset.range 2,
            CsrMatrix.getEntry (⟨2, 2, 0, [[1], []], [[5], []]⟩ : CsrMatrix ℤ) k i *
            DMat.get (⟨2, 2, [[1, 2], [3, 4]]⟩ : DMat ℤ) k j)) :=
  ⟨⟨by decide, by decide⟩, ⟨by decide, by decide, by decide, by decide, by decide⟩,
   ⟨by decide, by decide⟩,
   spmm_csr_dense_affine_op (⟨2, 2, [[7, 8], [9, 10]]⟩ : DMat ℤ) 2 3 true
     ⟨2, 2, 0, [[1], []], [[5], []]⟩ false ⟨2, 2, [[1, 2], [3, 4]]⟩
     ⟨by decide, by decide⟩ ⟨by decide, by decide, by decide, by decide, by decide⟩
     ⟨by decide, by decide⟩ (by decide) (by decide) (by decide)⟩

/-- C2: with `beta = 0`, `alpha = 1` and no transposition, the
sparse-dense kernel overwrites `C` with exactly the dense matrix product
`A * B`, entries of `A` absent from its pattern counting as zero. -/
theorem spmm_csr_dense_matmul {T : Type} [CommRing T] (c : DMat T) (a : CsrMatrix T)
    (b : DMat T) (hc : DWF c) (ha : CsrWF a) (hb : DWF b)
    (h1 : a.nrows = c.nrows) (h2 : b.ncols = c.ncols) (h3 : a.ncols = b.nrows) :
    spmm_csr_dense c 0 1 false a false b =
      DMat.ofFun c.nrows c.ncols (fun i j =>
        ∑ k ∈ Finset.range a.ncols, a.getEntry i k * b.get k j) := by
  rw [spmm_csr_dense_ofFun c 0 1 false a false b hc ha hb h1 h2 h3]
  show DMat.ofFun c.nrows c.ncols
    (fun i j => 0 * c.get i j + 1 * ∑ k ∈ Finset.range a.ncols,
      a.getEntry i k * b.get k j) = _
  apply ofFun_congr
  intro i _ j _
  ring

theorem spmm_csr_dense_matmul_witness :
    DWF (⟨2, 2, [[0, 0], [0, 0]]⟩ : DMat ℤ) ∧
    CsrWF (⟨2, 2, 0, [[0], [1]], [[2], [3]]⟩ : CsrMatrix ℤ) ∧
    DWF (⟨2, 2, [[1, 2], [3, 4]]⟩ : DMat ℤ) ∧
    (spmm_csr_dense (⟨2, 2, [[0, 0], [0, 0]]⟩ : DMat ℤ) 0 1 false
      ⟨2, 2, 0, [[0], [1]], [[2], [3]]⟩ false ⟨2, 2, [[1, 2], [3, 4]]⟩ =
      DMat.ofFun 2 2 (fun i j =>
        ∑ k ∈ Finset.range 2,
          CsrMatrix.getEntry (⟨2, 2, 0, [[0], [1]], [[2], [3]]⟩ : CsrMatrix ℤ) i k *
          DMat.get (⟨2, 2, [[1, 2], [3, 4]]⟩ : DMat ℤ) k j)) :=
  ⟨⟨by decide, by decide⟩, ⟨by decide, by decide, by decide, by decide, by decide⟩,
   ⟨by decide, by decide⟩,
   spmm_csr_dense_matmul (⟨2, 2, [[0, 0], [0, 0]]⟩ : DMat ℤ)
     ⟨2, 2, 0, [[0], [1]], [[2], [3]]⟩ ⟨2, 2, [[1, 2], [3, 4]]⟩
     ⟨by decide, by decide⟩ ⟨by decide, by decide, by decide, by decide, by decide⟩
     ⟨by decide, by decide⟩ (by decide) (by decide) (by decide)⟩

/-- C8: with `beta = 1` and `alpha = 0`, `spmm_csr_dense` leaves every
entry of `C` unchanged, for both values of each transpose flag. -/
theorem spmm_csr_dense_one_zero_id {T : Type} [CommRing T] (c : DMat T)
    (ta : Bool) (a : CsrMatrix T) (tb : Bool) (b : DMat T)
    (hc : DWF c) (ha : CsrWF a) (hb : DWF b)
    (h1 : (if ta then a.ncols else a.nrows) = c.nrows)
    (h2 : (if tb then b.nrows else b.ncols) = c.ncols)
    (h3 : (if ta then a.nrows else a.ncols) = (if tb then b.ncols else b.nrows)) :
    spmm_csr_dense c 1 0 ta a tb b = c := by
  rw [spmm_csr_dense_ofFun c 1 0 ta a tb b hc ha hb h1 h2 h3]
  refine (dmat_eq_ofFun c c.nrows c.ncols _ rfl rfl hc.rowsLen ?_ ?_).symm
  · intro i hi
    exact hc.rowLen _ (getD_mem_of_lt _ _ _ (by rw [hc.rowsLen]; omega))
  · intro i _ j _
    ring

theorem spmm_csr_dense_one_zero_id_witness :
    DWF (⟨2, 2, [[7, 8], [9, 10]]⟩ : DMat ℤ) ∧
    CsrWF (⟨2, 2, 0, [[1], []], [[5], []]⟩ : CsrMatrix ℤ) ∧
    DWF (⟨2, 2, [[1, 2], [3, 4]]⟩ : DMat ℤ) ∧
    (spmm_csr_dense (⟨2, 2, [[7, 8], [9, 10]]⟩ : DMat ℤ) 1 0 true
      ⟨2, 2, 0, [[1], []], [[5], []]⟩ true ⟨2, 2, [[1, 2], [3, 4]]⟩ =
      ⟨2, 2, [[7, 8], [9, 10]]⟩) :=
  ⟨⟨by decide, by decide⟩, ⟨by decide, by decide, by decide, by decide, by decide⟩,
   ⟨by decide, by decide⟩,
   spmm_csr_dense_one_zero_id (⟨2, 2, [[7, 8], [9, 10]]⟩ : DMat ℤ) true
     ⟨2, 2, 0, [[1], []], [[5], []]⟩ true ⟨2, 2, [[1, 2], [3, 4]]⟩
     ⟨by decide, by decide⟩ ⟨by decide, by decide, by decide, by decide, by decide⟩
     ⟨by decide, by decide⟩ (by decide) (by decide) (by decide)⟩

/-- C9: the forward-advancing linear scan of the non-transposed general
paths is complete: under the CSR sortedness invariant, whenever `C`'s
row pattern contains every required column, neither `spadd_csr` nor
`spmm_csr` can reach the `InvalidPattern` branch. -/
theorem forward_scan_completeness {T : Type} [CommRing T] [DecidableEq T] :
    (∀ (c a : CsrMatrix T) (beta alpha : T), CsrWF c → CsrWF a →
      c.nrows = a.nrows → c.ncols = a.ncols →
      (∀ i < c.nrows, ∀ k ∈ a.rowCols.getD i [], k ∈ c.rowCols.getD i []) →
      (spadd_csr c beta alpha false a).2 = none) ∧
    (∀ (c a b : CsrMatrix T) (beta alpha : T), CsrWF c → CsrWF a → CsrWF b →
      c.nrows = a.nrows → c.ncols = b.ncols → a.ncols = b.nrows →
      (∀ i < c.nrows, ∀ k ∈ a.rowCols.getD i [], ∀ j ∈ b.rowCols.getD k [],
        j ∈ c.rowCols.getD i []) →
      (spmm_csr c beta alpha false a false b).2 = none) := by
  constructor
  · intro c a beta alpha hc ha hr hcol hcont
    by_cases hpid : c.pid = a.pid
    · unfold spadd_csr
      rw [if_pos hpid]
    · exact (spadd_csr_nontrans_ok c a beta alpha hc ha hpid hr hcont).1
  · intro c a b beta alpha hc ha hb hr hcc hab hcont
    show (spmm_csr_base c beta alpha a b).2 = none
    exact (spmm_csr_base_ok c a b beta alpha hc ha hb hr hcont).1

theorem forward_scan_completeness_witness :
    ((spadd_csr (⟨2, 2, 1, [[0, 1], [1]], [[1, 2], [3]]⟩ : CsrMatrix ℤ) 5 7 false
      ⟨2, 2, 2, [[1], []], [[5], []]⟩).2 = none) ∧
    ((spmm_csr (⟨2, 2, 4, [[0, 1], [0, 1]], [[9, 9], [9, 9]]⟩ : CsrMatrix ℤ) 5 7 false
      ⟨2, 2, 0, [[0], [1]], [[1], [1]]⟩ false
      ⟨2, 2, 3, [[0, 1], [1]], [[4, 5], [6]]⟩).2 = none) :=
  ⟨forward_scan_completeness.1 (⟨2, 2, 1, [[0, 1], [1]], [[1, 2], [3]]⟩ : CsrMatrix ℤ)
     ⟨2, 2, 2, [[1], []], [[5], []]⟩ 5 7
     ⟨by decide, by decide, by decide, by decide, by decide⟩
     ⟨by decide, by decide, by decide, by decide, by decide⟩
     (by decide) (by decide) (by decide),
   forward_scan_completeness.2 (⟨2, 2, 4, [[0, 1], [0, 1]], [[9, 9], [9, 9]]⟩ : CsrMatrix ℤ)
     ⟨2, 2, 0, [[0], [1]], [[1], [1]]⟩ ⟨2, 2, 3, [[0, 1], [1]], [[4, 5], [6]]⟩ 5 7
     ⟨by decide, by decide, by decide, by decide, by decide⟩
     ⟨by decide, by decide, by decide, by decide, by decide⟩
     ⟨by decide, by decide, by decide, by decide, by decide⟩
     (by decide) (by decide) (by decide) (by decide)⟩

/-- C6: when the sparsity patterns of `C` and `A` are structurally equal
(same per-row column lists, not necessarily the same shared pattern
object), `spadd_csr(C, 0, 1, false, A)` succeeds and leaves `C`'s values
equal to `A`'s, entry for entry, over the common pattern. -/
theorem spadd_csr_structural_identity {T : Type} [CommRing T] [DecidableEq T]
    (c a : CsrMatrix T) (hc : CsrWF c) (ha : CsrWF a)
    (hpat : c.rowCols = a.rowCols) (hr : c.nrows = a.nrows) (hcol : c.ncols = a.ncols) :
    (spadd_csr c 0 1 false a).2 = none ∧
    (spadd_csr c 0 1 false a).1.rowCols = c.rowCols ∧
    (spadd_csr c 0 1 false a).1.rowVals = a.rowVals := by
  by_cases hpid : c.pid = a.pid
  · have hassemble : spadd_csr c 0 1 false a =
        ({ c with rowVals := List.zipWith (fun cr ar => List.zipWith
          (fun cv av => (0 : T) * cv + 1 * av) cr ar) c.rowVals a.rowVals }, none) := by
      unfold spadd_csr
      rw [if_pos hpid]
    rw [hassemble]
    refine ⟨rfl, rfl, ?_⟩
    show List.zipWith _ c.rowVals a.rowVals = a.rowVals
    apply zipWith2_right _ (fun x y => by ring)
    · rw [hc.valsLen, ha.valsLen, hr]
    · intro m hm
      rw [hc.rowLen_any m, ha.rowLen_any m, hpat]
  · obtain ⟨h2, hnr, hnc, hcols, hvlen, hvals⟩ := spadd_csr_nontrans_ok c a 0 1 hc ha
      hpid hr (by intro i hi k hk; rw [hpat]; exact hk)
    refine ⟨h2, hcols, ?_⟩
    apply List.ext_getElem
    · rw [hvlen, ha.valsLen, hr]
    · intro m hl1 hl2
      rw [← getD_eq_getElem_of_lt _ [] m hl1, ← getD_eq_getElem_of_lt _ [] m hl2]
      have hm : m < c.nrows := by rw [← hvlen]; exact hl1
      rw [hvals m hm]
      rw [show a.rowEntries m = (a.rowCols.getD m []).zip (a.rowVals.getD m []) from rfl]
      rw [hpat]
      exact row_zero_one (a.rowCols.getD m []) (c.rowVals.getD m []) (a.rowVals.getD m [])
        (by rw [← hpat]; exact hc.sorted_any m) (ha.rowLen_any m)
        (hpat ▸ hc.rowLen_any m)

theorem spadd_csr_structural_identity_witness :
    ((spadd_csr (⟨2, 2, 1, [[1], [0, 1]], [[3], [4, 5]]⟩ : CsrMatrix ℤ) 0 1 false
      ⟨2, 2, 2, [[1], [0, 1]], [[7], [8, 9]]⟩).2 = none) ∧
    ((spadd_csr (⟨2, 2, 1, [[1], [0, 1]], [[3], [4, 5]]⟩ : CsrMatrix ℤ) 0 1 false
      ⟨2, 2, 2, [[1], [0, 1]], [[7], [8, 9]]⟩).1.rowCols = [[1], [0, 1]]) ∧
    ((spadd_csr (⟨2, 2, 1, [[1], [0, 1]], [[3], [4, 5]]⟩ : CsrMatrix ℤ) 0 1 false
      ⟨2, 2, 2, [[1], [0, 1]], [[7], [8, 9]]⟩).1.rowVals = [[7], [8, 9]]) :=
  spadd_csr_structural_identity (⟨2, 2, 1, [[1], [0, 1]], [[3], [4, 5]]⟩ : CsrMatrix ℤ)
    ⟨2, 2, 2, [[1], [0, 1]], [[7], [8, 9]]⟩
    ⟨by decide, by decide, by decide, by decide, by decide⟩
    ⟨by decide, by decide, by decide, by decide, by decide⟩
    (by decide) (by decide) (by decide)

/-- C7: with `A` the 2×2 identity-pattern matrix `[[1,0],[0,1]]` and any
2×2 sparse `B` whose pattern is contained row-wise in `C`'s pattern,
`spmm_csr(C, 0, 1, false, A, false, B)` succeeds and leaves `C` equal to
`B` as a dense matrix: `B`'s values at `B`'s stored positions and zero at
every other position. -/
theorem spmm_csr_identity_left {T : Type} [CommRing T] (b c : CsrMatrix T)
    (hb : CsrWF b) (hc : CsrWF c)
    (hbn : b.nrows = 2) (hbc2 : b.ncols = 2) (hcn : c.nrows = 2) (hcc : c.ncols = 2)
    (hcont : ∀ i < 2, ∀ j ∈ b.rowCols.getD i [], j ∈ c.rowCols.getD i []) :
    (spmm_csr c 0 1 false (⟨2, 2, 0, [[0], [1]], [[1], [1]]⟩ : CsrMatrix T) false b).2 =
      none ∧
    ∀ i j, (spmm_csr c 0 1 false (⟨2, 2, 0, [[0], [1]], [[1], [1]]⟩ : CsrMatrix T) false
      b).1.getEntry i j = b.getEntry i j := by
  have hA : CsrWF (⟨2, 2, 0, [[0], [1]], [[1], [1]]⟩ : CsrMatrix T) := by
    refine ⟨rfl, rfl, ?_, ?_, ?_⟩
    · intro i hi
      have hi2 : i < 2 := hi
      rcases (by omega : i = 0 ∨ i = 1) with rfl | rfl <;> rfl
    · intro i hi
      have hi2 : i < 2 := hi
      rcases (by omega : i = 0 ∨ i = 1) with rfl | rfl <;> simp
    · intro i hi
      have hi2 : i < 2 := hi
      rcases (by omega : i = 0 ∨ i = 1) with rfl | rfl <;> simp
  have hcontA : ∀ i < c.nrows,
      ∀ k ∈ (⟨2, 2, 0, [[0], [1]], [[1], [1]]⟩ : CsrMatrix T).rowCols.getD i [],
      ∀ j ∈ b.rowCols.getD k [], j ∈ c.rowCols.getD i [] := by
    intro i hi k hk j hj
    rw [hcn] at hi
    rcases (by omega : i = 0 ∨ i = 1) with rfl | rfl
    · simp only [List.getD_cons_zero] at hk
      simp at hk
      subst hk
      exact hcont 0 (by omega) j hj
    · simp only [List.getD_cons_succ, List.getD_cons_zero] at hk
      simp at hk
      subst hk
      exact hcont 1 (by omega) j hj
  constructor
  · show (spmm_csr_base c 0 1 (⟨2, 2, 0, [[0], [1]], [[1], [1]]⟩ : CsrMatrix T) b).2 = none
    exact (spmm_csr_base_ok c _ b 0 1 hc hA hb (by rw [hcn]) hcontA).1
  · intro i j
    show (spmm_csr_base c 0 1 (⟨2, 2, 0, [[0], [1]], [[1], [1]]⟩ : CsrMatrix T)
      b).1.getEntry i j = b.getEntry i j
    rw [spmm_csr_base_entry c _ b 0 1 hc hA hb (by rw [hcn]) hcontA i j]
    show (0 : T) * c.getEntry i j + 1 * ∑ k ∈ Finset.range 2, _ = _
    rw [Finset.sum_range_succ, Finset.sum_range_succ, Finset.sum_range_zero]
    rcases (by omega : i = 0 ∨ i = 1 ∨ 2 ≤ i) with rfl | rfl | hge
    · rw [show (⟨2, 2, 0, [[0], [1]], [[1], [1]]⟩ : CsrMatrix T).getEntry 0 0 = 1 from rfl,
        show (⟨2, 2, 0, [[0], [1]], [[1], [1]]⟩ : CsrMatrix T).getEntry 0 1 = 0 from rfl]
      ring
    · rw [show (⟨2, 2, 0, [[0], [1]], [[1], [1]]⟩ : CsrMatrix T).getEntry 1 0 = 0 from rfl,
        show (⟨2, 2, 0, [[0], [1]], [[1], [1]]⟩ : CsrMatrix T).getEntry 1 1 = 1 from rfl]
      ring
    · have h2A : ∀ k, (⟨2, 2, 0, [[0], [1]], [[1], [1]]⟩ : CsrMatrix T).getEntry i k = 0 := by
        intro k
        apply getEntry_not_mem
        rw [List.getD_eq_default _ _ (by simp; omega)]
        simp
      have hbi : b.getEntry i j = 0 := by
        apply getEntry_not_mem
        rw [List.getD_eq_default _ _ (by rw [hb.colsLen, hbn]; omega)]
        simp
      rw [h2A 0, h2A 1, hbi]
      ring

theorem spmm_csr_identity_left_witness :
    ((spmm_csr (⟨2, 2, 4, [[0, 1], [0, 1]], [[9, 9], [9, 9]]⟩ : CsrMatrix ℤ) 0 1 false
      (⟨2, 2, 0, [[0], [1]], [[1], [1]]⟩ : CsrMatrix ℤ) false
      ⟨2, 2, 3, [[0, 1], [1]], [[4, 5], [6]]⟩).2 = none) ∧
    ((spmm_csr (⟨2, 2, 4, [[0, 1], [0, 1]], [[9, 9], [9, 9]]⟩ : CsrMatrix ℤ) 0 1 false
      (⟨2, 2, 0, [[0], [1]], [[1], [1]]⟩ : CsrMatrix ℤ) false
      ⟨2, 2, 3, [[0, 1], [1]], [[4, 5], [6]]⟩).1.getEntry 1 0 =
      (⟨2, 2, 3, [[0, 1], [1]], [[4, 5], [6]]⟩ : CsrMatrix ℤ).getEntry 1 0) :=
  ⟨(spmm_csr_identity_left (⟨2, 2, 3, [[0, 1], [1]], [[4, 5], [6]]⟩ : CsrMatrix ℤ)
      ⟨2, 2, 4, [[0, 1], [0, 1]], [[9, 9], [9, 9]]⟩
      ⟨by decide, by decide, by decide, by decide, by decide⟩
      ⟨by decide, by decide, by decide, by decide, by decide⟩
      (by decide) (by decide) (by decide) (by decide) (by decide)).1,
   (spmm_csr_identity_left (⟨2, 2, 3, [[0, 1], [1]], [[4, 5], [6]]⟩ : CsrMatrix ℤ)
      ⟨2, 2, 4, [[0, 1], [0, 1]], [[9, 9], [9, 9]]⟩
      ⟨by decide, by decide, by decide, by decide, by decide⟩
      ⟨by decide, by decide, by decide, by decide, by decide⟩
      (by decide) (by decide) (by decide) (by decide) (by decide)).2 1 0⟩

/-- C5: whenever the non-transposed general path of `spadd_csr` or the
non-transposed case of `spmm_csr` reports `InvalidPattern`, the kernel
returned at the first failing row: every earlier row carries its full
update (beta scaling plus the accumulated alpha terms), the failing row
is left in the partially updated state the row computation reached, and
no later row was processed; `C` is not rolled back. -/
theorem serial_kernels_partial_failure {T : Type} [CommRing T] [DecidableEq T] :
    (∀ (c a : CsrMatrix T) (beta alpha : T) (e : OperationError),
      c.pid ≠ a.pid → (spadd_csr c beta alpha false a).2 = some e →
      ∃ i0, i0 < ((c.rowCols.zip c.rowVals).zip a.rowsEntries).length ∧
        (∀ m < i0, (spaddRowStep beta alpha (c.rowCols.getD m []) (c.rowVals.getD m [])
            (a.rowEntries m)).2 = none ∧
          (spadd_csr c beta alpha false a).1.rowVals.getD m [] =
            (spaddRowStep beta alpha (c.rowCols.getD m []) (c.rowVals.getD m [])
              (a.rowEntries m)).1) ∧
        (spaddRowStep beta alpha (c.rowCols.getD i0 []) (c.rowVals.getD i0 [])
          (a.rowEntries i0)).2 = some e ∧
        (spadd_csr c beta alpha false a).1.rowVals.getD i0 [] =
          (spaddRowStep beta alpha (c.rowCols.getD i0 []) (c.rowVals.getD i0 [])
            (a.rowEntries i0)).1 ∧
        (∀ m, i0 < m → (spadd_csr c beta alpha false a).1.rowVals.getD m [] =
          c.rowVals.getD m [])) ∧
    (∀ (c a b : CsrMatrix T) (beta alpha : T) (e : OperationError),
      (spmm_csr c beta alpha false a false b).2 = some e →
      ∃ i0, i0 < ((c.rowCols.zip c.rowVals).zip a.rowsEntries).length ∧
        (∀ m < i0, (spmmRowStep beta alpha b (c.rowCols.getD m []) (c.rowVals.getD m [])
            (a.rowEntries m)).2 = none ∧
          (spmm_csr c beta alpha false a false b).1.rowVals.getD m [] =
            (spmmRowStep beta alpha b (c.rowCols.getD m []) (c.rowVals.getD m [])
              (a.rowEntries m)).1) ∧
        (spmmRowStep beta alpha b (c.rowCols.getD i0 []) (c.rowVals.getD i0 [])
          (a.rowEntries i0)).2 = some e ∧
        (spmm_csr c beta alpha false a false b).1.rowVals.getD i0 [] =
          (spmmRowStep beta alpha b (c.rowCols.getD i0 []) (c.rowVals.getD i0 [])
            (a.rowEntries i0)).1 ∧
        (∀ m, i0 < m → (spmm_csr c beta alpha false a false b).1.rowVals.getD m [] =
          c.rowVals.getD m [])) :=
  ⟨fun c a beta alpha e hpid herr => spadd_csr_err_partial c a beta alpha e hpid herr,
   fun c a b beta alpha e herr => spmm_csr_err_partial c a b beta alpha e herr⟩

theorem serial_kernels_partial_failure_witness :
    ((⟨2, 2, 1, [[0], [0]], [[10], [20]]⟩ : CsrMatrix ℤ).pid ≠
      (⟨2, 2, 2, [[0], [0, 1]], [[100], [7, 200]]⟩ : CsrMatrix ℤ).pid) ∧
    ((spadd_csr (⟨2, 2, 1, [[0], [0]], [[10], [20]]⟩ : CsrMatrix ℤ) 1 1 false
      ⟨2, 2, 2, [[0], [0, 1]], [[100], [7, 200]]⟩).2 = some spadd_csr_unexpected_entry) ∧
    (∃ i0, i0 < (((⟨2, 2, 1, [[0], [0]], [[10], [20]]⟩ : CsrMatrix ℤ).rowCols.zip
        (⟨2, 2, 1, [[0], [0]], [[10], [20]]⟩ : CsrMatrix ℤ).rowVals).zip
        (⟨2, 2, 2, [[0], [0, 1]], [[100], [7, 200]]⟩ : CsrMatrix ℤ).rowsEntries).length ∧
      (∀ m < i0, (spaddRowStep 1 1
          ((⟨2, 2, 1, [[0], [0]], [[10], [20]]⟩ : CsrMatrix ℤ).rowCols.getD m [])
          ((⟨2, 2, 1, [[0], [0]], [[10], [20]]⟩ : CsrMatrix ℤ).rowVals.getD m [])
          ((⟨2, 2, 2, [[0], [0, 1]], [[100], [7, 200]]⟩ : CsrMatrix ℤ).rowEntries m)).2 =
            none ∧
        (spadd_csr (⟨2, 2, 1, [[0], [0]], [[10], [20]]⟩ : CsrMatrix ℤ) 1 1 false
          ⟨2, 2, 2, [[0], [0, 1]], [[100], [7, 200]]⟩).1.rowVals.getD m [] =
          (spaddRowStep 1 1
            ((⟨2, 2, 1, [[0], [0]], [[10], [20]]⟩ : CsrMatrix ℤ).rowCols.getD m [])
            ((⟨2, 2, 1, [[0], [0]], [[10], [20]]⟩ : CsrMatrix ℤ).rowVals.getD m [])
            ((⟨2, 2, 2, [[0], [0, 1]], [[100], [7, 200]]⟩ : CsrMatrix ℤ).rowEntries m)).1) ∧
      (spaddRowStep 1 1
        ((⟨2, 2, 1, [[0], [0]], [[10], [20]]⟩ : CsrMatrix ℤ).rowCols.getD i0 [])
        ((⟨2, 2, 1, [[0], [0]], [[10], [20]]⟩ : CsrMatrix ℤ).rowVals.getD i0 [])
        ((⟨2, 2, 2, [[0], [0, 1]], [[100], [7, 200]]⟩ : CsrMatrix ℤ).rowEntries i0)).2 =
          some spadd_csr_unexpected_entry ∧
      (spadd_csr (⟨2, 2, 1, [[0], [0]], [[10], [20]]⟩ : CsrMatrix ℤ) 1 1 false
        ⟨2, 2, 2, [[0], [0, 1]], [[100], [7, 200]]⟩).1.rowVals.getD i0 [] =
        (spaddRowStep 1 1
          ((⟨2, 2, 1, [[0], [0]], [[10], [20]]⟩ : CsrMatrix ℤ).rowCols.getD i0 [])
          ((⟨2, 2, 1, [[0], [0]], [[10], [20]]⟩ : CsrMatrix ℤ).rowVals.getD i0 [])
          ((⟨2, 2, 2, [[0], [0, 1]], [[100], [7, 200]]⟩ : CsrMatrix ℤ).rowEntries i0)).1 ∧
      (∀ m, i0 < m →
        (spadd_csr (⟨2, 2, 1, [[0], [0]], [[10], [20]]⟩ : CsrMatrix ℤ) 1 1 false
          ⟨2, 2, 2, [[0], [0, 1]], [[100], [7, 200]]⟩).1.rowVals.getD m [] =
          (⟨2, 2, 1, [[0], [0]], [[10], [20]]⟩ : CsrMatrix ℤ).rowVals.getD m [])) ∧
    ((spmm_csr (⟨2, 2, 4, [[0], [0]], [[9], [9]]⟩ : CsrMatrix ℤ) 0 1 false
      ⟨2, 2, 0, [[0], [1]], [[1], [1]]⟩ false ⟨2, 2, 3, [[0], [1]], [[4], [6]]⟩).2 =
      some spmm_csr_unexpected_entry) ∧
    (∃ i0, i0 < (((⟨2, 2, 4, [[0], [0]], [[9], [9]]⟩ : CsrMatrix ℤ).rowCols.zip
        (⟨2, 2, 4, [[0], [0]], [[9], [9]]⟩ : CsrMatrix ℤ).rowVals).zip
        (⟨2, 2, 0, [[0], [1]], [[1], [1]]⟩ : CsrMatrix ℤ).rowsEntries).length ∧
      (∀ m < i0, (spmmRowStep 0 1 (⟨2, 2, 3, [[0], [1]], [[4], [6]]⟩ : CsrMatrix ℤ)
          ((⟨2, 2, 4, [[0], [0]], [[9], [9]]⟩ : CsrMatrix ℤ).rowCols.getD m [])
          ((⟨2, 2, 4, [[0], [0]], [[9], [9]]⟩ : CsrMatrix ℤ).rowVals.getD m [])
          ((⟨2, 2, 0, [[0], [1]], [[1], [1]]⟩ : CsrMatrix ℤ).rowEntries m)).2 = none ∧
        (spmm_csr (⟨2, 2, 4, [[0], [0]], [[9], [9]]⟩ : CsrMatrix ℤ) 0 1 false
          ⟨2, 2, 0, [[0], [1]], [[1], [1]]⟩ false
          ⟨2, 2, 3, [[0], [1]], [[4], [6]]⟩).1.rowVals.getD m [] =
          (spmmRowStep 0 1 (⟨2, 2, 3, [[0], [1]], [[4], [6]]⟩ : CsrMatrix ℤ)
            ((⟨2, 2, 4, [[0], [0]], [[9], [9]]⟩ : CsrMatrix ℤ).rowCols.getD m [])
            ((⟨2, 2, 4, [[0], [0]], [[9], [9]]⟩ : CsrMatrix ℤ).rowVals.getD m [])
            ((⟨2, 2, 0, [[0], [1]], [[1], [1]]⟩ : CsrMatrix ℤ).rowEntries m)).1) ∧
      (spmmRowStep 0 1 (⟨2, 2, 3, [[0], [1]], [[4], [6]]⟩ : CsrMatrix ℤ)
        ((⟨2, 2, 4, [[0], [0]], [[9], [9]]⟩ : CsrMatrix ℤ).rowCols.getD i0 [])
        ((⟨2, 2, 4, [[0], [0]], [[9], [9]]⟩ : CsrMatrix ℤ).rowVals.getD i0 [])
        ((⟨2, 2, 0, [[0], [1]], [[1], [1]]⟩ : CsrMatrix ℤ).rowEntries i0)).2 =
          some spmm_csr_unexpected_entry ∧
      (spmm_csr (⟨2, 2, 4, [[0], [0]], [[9], [9]]⟩ : CsrMatrix ℤ) 0 1 false
        ⟨2, 2, 0, [[0], [1]], [[1], [1]]⟩ false
        ⟨2, 2, 3, [[0], [1]], [[4], [6]]⟩).1.rowVals.getD i0 [] =
        (spmmRowStep 0 1 (⟨2, 2, 3, [[0], [1]], [[4], [6]]⟩ : CsrMatrix ℤ)
          ((⟨2, 2, 4, [[0], [0]], [[9], [9]]⟩ : CsrMatrix ℤ).rowCols.getD i0 [])
          ((⟨2, 2, 4, [[0], [0]], [[9], [9]]⟩ : CsrMatrix ℤ).rowVals.getD i0 [])
          ((⟨2, 2, 0, [[0], [1]], [[1], [1]]⟩ : CsrMatrix ℤ).rowEntries i0)).1 ∧
      (∀ m, i0 < m →
        (spmm_csr (⟨2, 2, 4, [[0], [0]], [[9], [9]]⟩ : CsrMatrix ℤ) 0 1 false
          ⟨2, 2, 0, [[0], [1]], [[1], [1]]⟩ false
          ⟨2, 2, 3, [[0], [1]], [[4], [6]]⟩).1.rowVals.getD m [] =
          (⟨2, 2, 4, [[0], [0]], [[9], [9]]⟩ : CsrMatrix ℤ).rowVals.getD m [])) :=
  ⟨by decide, rfl,
   serial_kernels_partial_failure.1 (⟨2, 2, 1, [[0], [0]], [[10], [20]]⟩ : CsrMatrix ℤ)
     ⟨2, 2, 2, [[0], [0, 1]], [[100], [7, 200]]⟩ 1 1 spadd_csr_unexpected_entry
     (by decide) rfl,
   rfl,
   serial_kernels_partial_failure.2 (⟨2, 2, 4, [[0], [0]], [[9], [9]]⟩ : CsrMatrix ℤ)
     ⟨2, 2, 0, [[0], [1]], [[1], [1]]⟩ ⟨2, 2, 3, [[0], [1]], [[4], [6]]⟩ 0 1
     spmm_csr_unexpected_entry rfl⟩

end CsrKernels
